import Mathlib

/-!
# cutlines: clipping polylines against an axis-aligned rectangle

A shallow embedding of `src/src/cutlines.cpp` and `include/cutlines/cutlines.h`.

* Coordinates (`double` in the source) are exact rationals `ℚ`: no NaN, no infinity,
  no overflow and no rounding. A second copy of the program, in the namespace `ieee`,
  runs over doubles that may be NaN; on inputs without NaN it returns what the copy
  over `ℚ` returns.
* `OutCode` (`int` in the source) is `Nat`; the only values that occur are
  bitwise ORs of `LEFT`, `RIGHT`, `BOTTOM`, `TOP`, so no overflow is possible.
* `std::optional<ClipResult>` is `Option ClipResult`.
* The `while (true)` loop of `CohenSutherlandLineClip` is a recursive function with
  fuel: the fuel bounds the number of executions of the clipping branch, and an
  outer `Option` is `none` when the fuel is used up before the loop exits.
-/

namespace cutlines

/-! ## The program -/

/-- Source type `using Point = std::array<double, 2>`: `p.1` is `p[0]`, `p.2` is `p[1]`. -/
abbrev Point := ℚ × ℚ

/-- Source type `using Line = std::vector<Point>`. -/
abbrev Line := List Point

/-- Source type `struct Rect`: the clip window. -/
structure Rect where
  xMin : ℚ
  xMax : ℚ
  yMin : ℚ
  yMax : ℚ
deriving DecidableEq

/-- Source type `enum class Edge`. -/
inductive Edge where
  | NoEdge
  | Left
  | Right
  | Bottom
  | Top
deriving DecidableEq, Repr

/-- Source type `struct ClipResult`. -/
structure ClipResult where
  startClipEdge : Edge
  endClipEdge : Edge
  start : Point
  «end» : Point
deriving DecidableEq

/-- Source type `typedef int OutCode`. -/
abbrev OutCode := Nat

def INSIDE : OutCode := 0
def LEFT : OutCode := 1
def RIGHT : OutCode := 2
def BOTTOM : OutCode := 4
def TOP : OutCode := 8

/-- Function `ComputeOutCode(x, y, rect)`: the bit code of a point with respect to the clip
window (source lines 23-42). -/
def ComputeOutCode (x y : ℚ) (rect : Rect) : OutCode :=
  let code : OutCode := INSIDE
  let code : OutCode :=
    if x < rect.xMin then code ||| LEFT
    else if x > rect.xMax then code ||| RIGHT
    else code
  let code : OutCode :=
    if y < rect.yMin then code ||| BOTTOM
    else if y > rect.yMax then code ||| TOP
    else code
  code

/-- Function `toEdge(code)` (source lines 44-58): only a pure single-bit code names an edge. -/
def toEdge (code : OutCode) : Edge :=
  if code = LEFT then Edge.Left
  else if code = RIGHT then Edge.Right
  else if code = BOTTOM then Edge.Bottom
  else if code = TOP then Edge.Top
  else Edge.NoEdge

/-- The local variables of `CohenSutherlandLineClip` that change in its loop. -/
structure LoopState where
  x0 : ℚ
  y0 : ℚ
  x1 : ℚ
  y1 : ℚ
  outcode0 : OutCode
  outcode1 : OutCode
  lastEdge0 : OutCode
  lastEdge1 : OutCode
deriving DecidableEq

/-- The state on entry to the loop (source lines 65-80). -/
def initState (a b : Point) (rect : Rect) : LoopState :=
  { x0 := a.1, y0 := a.2, x1 := b.1, y1 := b.2,
    outcode0 := ComputeOutCode a.1 a.2 rect,
    outcode1 := ComputeOutCode b.1 b.2 rect,
    lastEdge0 := ComputeOutCode a.1 a.2 rect,
    lastEdge1 := ComputeOutCode b.1 b.2 rect }

/-- The outcode selected at source line 102. -/
def outcodeOut (s : LoopState) : OutCode :=
  if s.outcode1 > s.outcode0 then s.outcode1 else s.outcode0

/-- The intersection point `(x, y)` computed at source lines 111-123. The locals `x`, `y`
are uninitialised in the source when no bit of `outcodeOut` is set; that path is not
reachable in the clipping branch and the model puts `(0, 0)` there. -/
def intersection (rect : Rect) (s : LoopState) : ℚ × ℚ :=
  if outcodeOut s &&& TOP ≠ 0 then
    (s.x0 + (s.x1 - s.x0) * (rect.yMax - s.y0) / (s.y1 - s.y0), rect.yMax)
  else if outcodeOut s &&& BOTTOM ≠ 0 then
    (s.x0 + (s.x1 - s.x0) * (rect.yMin - s.y0) / (s.y1 - s.y0), rect.yMin)
  else if outcodeOut s &&& RIGHT ≠ 0 then
    (rect.xMax, s.y0 + (s.y1 - s.y0) * (rect.xMax - s.x0) / (s.x1 - s.x0))
  else if outcodeOut s &&& LEFT ≠ 0 then
    (rect.xMin, s.y0 + (s.y1 - s.y0) * (rect.xMin - s.x0) / (s.x1 - s.x0))
  else (0, 0)

/-- One execution of the clipping branch (source lines 96-142): the outside endpoint is
moved to the intersection point and its outcode is recomputed. -/
def clipBranch (rect : Rect) (s : LoopState) : LoopState :=
  let p := intersection rect s
  if outcodeOut s = s.outcode0 then
    let oc := ComputeOutCode p.1 p.2 rect
    { s with x0 := p.1, y0 := p.2, outcode0 := oc,
             lastEdge0 := if oc ≠ 0 then oc else s.lastEdge0 }
  else
    let oc := ComputeOutCode p.1 p.2 rect
    { s with x1 := p.1, y1 := p.2, outcode1 := oc,
             lastEdge1 := if oc ≠ 0 then oc else s.lastEdge1 }

/-- The `while (true)` loop (source lines 82-143). `fuel` bounds the number of executions
of the clipping branch. The result is `none` when the fuel is used up, `some none` when
the loop is left by `break` (the function returns `{}`), and `some (some r)` when it
returns `r`. -/
def clipLoop (rect : Rect) : Nat → LoopState → Option (Option ClipResult)
  | fuel, s =>
    if s.outcode0 ||| s.outcode1 = 0 then
      some (some { startClipEdge := toEdge s.lastEdge0, endClipEdge := toEdge s.lastEdge1,
                   start := (s.x0, s.y0), «end» := (s.x1, s.y1) })
    else if s.outcode0 &&& s.outcode1 ≠ 0 then
      some none
    else
      match fuel with
      | 0 => none
      | fuel + 1 => clipLoop rect fuel (clipBranch rect s)

/-- Function `cutlines::CohenSutherlandLineClip(a, b, rect)`, with the fuel of its loop. -/
def CohenSutherlandLineClip (fuel : Nat) (a b : Point) (rect : Rect) :
    Option (Option ClipResult) :=
  clipLoop rect fuel (initState a b rect)

/-- The body of the `for` loop of `clip` (source lines 157-178), run over the points that
follow `prev`; the state is `clippedLines` and `subLine`. -/
def clipFor (fuel : Nat) (rect : Rect) :
    Point → List Point → List Line → Line → Option (List Line × Line)
  | _, [], clippedLines, subLine => some (clippedLines, subLine)
  | prev, p :: rest, clippedLines, subLine =>
    match CohenSutherlandLineClip fuel prev p rect with
    | none => none
    | some (some clipResult) =>
      if subLine.isEmpty then
        let subLine := [clipResult.start, clipResult.«end»]
        if clipResult.endClipEdge ≠ Edge.NoEdge then
          clipFor fuel rect p rest (clippedLines ++ [subLine]) []
        else
          clipFor fuel rect p rest clippedLines subLine
      else
        clipFor fuel rect p rest clippedLines (subLine ++ [clipResult.«end»])
    | some none =>
      if !subLine.isEmpty then
        clipFor fuel rect p rest (clippedLines ++ [subLine]) []
      else
        clipFor fuel rect p rest clippedLines subLine

/-- Function `cutlines::clip(line, rect)` (source lines 148-185); the result is `none` when
the loop of a segment clip used up `fuel`. -/
def clip (fuel : Nat) (line : Line) (rect : Rect) : Option (List Line) :=
  match line with
  | [] => some []
  | [_] => some []
  | p0 :: p1 :: rest =>
    match clipFor fuel rect p0 (p1 :: rest) [] [] with
    | none => none
    | some (clippedLines, subLine) =>
      if !subLine.isEmpty then some (clippedLines ++ [subLine]) else some clippedLines

/-! ## Specification vocabulary -/

/-- The rectangle invariant of the data model: `xMin ≤ xMax` and `yMin ≤ yMax`. -/
def Rect.WellFormed (rect : Rect) : Prop :=
  rect.xMin ≤ rect.xMax ∧ rect.yMin ≤ rect.yMax

instance (rect : Rect) : Decidable rect.WellFormed :=
  inferInstanceAs (Decidable (rect.xMin ≤ rect.xMax ∧ rect.yMin ≤ rect.yMax))

/-- The point `p` lies in the closed rectangle `[xMin, xMax] × [yMin, yMax]`. -/
def inRect (rect : Rect) (p : Point) : Prop :=
  rect.xMin ≤ p.1 ∧ p.1 ≤ rect.xMax ∧ rect.yMin ≤ p.2 ∧ p.2 ≤ rect.yMax

instance (rect : Rect) (p : Point) : Decidable (inRect rect p) :=
  inferInstanceAs
    (Decidable (rect.xMin ≤ p.1 ∧ p.1 ≤ rect.xMax ∧ rect.yMin ≤ p.2 ∧ p.2 ≤ rect.yMax))

/-- The point at parameter `t` on the line through `a` and `b`: `a + t (b - a)`. -/
def pointAt (a b : Point) (t : ℚ) : Point :=
  (a.1 + t * (b.1 - a.1), a.2 + t * (b.2 - a.2))

/-- The point `p` lies on the closed segment from `a` to `b`. -/
def onSegment (a b p : Point) : Prop :=
  ∃ t : ℚ, 0 ≤ t ∧ t ≤ 1 ∧ p = pointAt a b t

/-- The segments of a polyline: the pairs of consecutive points. -/
def segments (line : Line) : List (Point × Point) :=
  line.zip line.tail

/-- The point `p` lies on a segment of the polyline `line`. -/
def onPolyline (line : Line) (p : Point) : Prop :=
  ∃ seg ∈ segments line, onSegment seg.1 seg.2 p

/-- The rectangle `{xMin: 0, xMax: 10, yMin: 0, yMax: 10}` of the examples. -/
def rect10 : Rect := { xMin := 0, xMax := 10, yMin := 0, yMax := 10 }

/-- The polyline `[(-1,5), (5,5), (5,-1), (11,5)]` of the examples. -/
def reentryLine : Line := [(-1, 5), (5, 5), (5, -1), (11, 5)]

/-! ## Definitions used in the proofs -/

/-- The values `ComputeOutCode` can return. -/
def outcodeValues : List Nat := [0, 1, 2, 4, 5, 6, 8, 9, 10]

/-- Number of bits set in an outcode. -/
def bitCount (o : Nat) : Nat :=
  (if o &&& LEFT ≠ 0 then 1 else 0) + (if o &&& RIGHT ≠ 0 then 1 else 0) +
  (if o &&& BOTTOM ≠ 0 then 1 else 0) + (if o &&& TOP ≠ 0 then 1 else 0)

/-- The ordinate `y` is that of the horizontal boundary line on the side of an ordinate
`ay` outside the rectangle: `yMax` when `ay` is above, `yMin` when `ay` is below. -/
def yOn (rect : Rect) (ay y : ℚ) : Prop :=
  (ay > rect.yMax ∧ y = rect.yMax) ∨ (ay < rect.yMin ∧ y = rect.yMin)

/-- History of one endpoint in the loop: `A` and `ay` are the outcode and ordinate of the
input point, `o`, `l`, `y` the current outcode, last recorded outcode and ordinate.
The cases are: not moved yet; a one-bit point moved into the rectangle; a two-bit
(corner) point whose first move landed in the rectangle; a two-bit point whose first
move left one bit; a two-bit point moved twice. -/
def Traj (rect : Rect) (A : Nat) (ay : ℚ) (o l : Nat) (y : ℚ) : Prop :=
  (o = A ∧ l = A ∧ y = ay) ∨
  (bitCount A = 1 ∧ o = 0 ∧ l = A) ∨
  (bitCount A = 2 ∧ o = 0 ∧ l = A ∧ yOn rect ay y) ∨
  (bitCount A = 2 ∧ bitCount o = 1 ∧ l = o ∧ yOn rect ay y) ∨
  (bitCount A = 2 ∧ o = 0 ∧ bitCount l = 1 ∧ l ∈ outcodeValues ∧ ¬ yOn rect ay y)

/-- The result returned at source lines 86-91 from state `s`. -/
def acceptResult (s : LoopState) : ClipResult :=
  { startClipEdge := toEdge s.lastEdge0, endClipEdge := toEdge s.lastEdge1,
    start := (s.x0, s.y0), «end» := (s.x1, s.y1) }

/-- Sum of the numbers of outcode bits of the two endpoints. -/
def clipMeasure (s : LoopState) : Nat := bitCount s.outcode0 + bitCount s.outcode1

/-- Loop invariant: the outcodes are those of the current endpoints, the current
endpoints are the points of the segment `a b` at parameters `t0 ≤ t1`, and every point
of the segment `a b` in the rectangle has its parameter between `t0` and `t1`. -/
structure Inv (a b : Point) (rect : Rect) (s : LoopState) (t0 t1 : ℚ) : Prop where
  oc0 : s.outcode0 = ComputeOutCode s.x0 s.y0 rect
  oc1 : s.outcode1 = ComputeOutCode s.x1 s.y1 rect
  h0 : 0 ≤ t0
  h01 : t0 ≤ t1
  h1 : t1 ≤ 1
  x0 : s.x0 = a.1 + t0 * (b.1 - a.1)
  y0 : s.y0 = a.2 + t0 * (b.2 - a.2)
  x1 : s.x1 = a.1 + t1 * (b.1 - a.1)
  y1 : s.y1 = a.2 + t1 * (b.2 - a.2)
  vis : ∀ u, 0 ≤ u → u ≤ 1 → inRect rect (pointAt a b u) → t0 ≤ u ∧ u ≤ t1

/-! ## Definitions for the loop states, the edges and the reversal -/

/-- The outcode variables of the loop hold the outcodes of the current endpoints. -/
def OutcodesCurrent (rect : Rect) (s : LoopState) : Prop :=
  s.outcode0 = ComputeOutCode s.x0 s.y0 rect ∧ s.outcode1 = ComputeOutCode s.x1 s.y1 rect

/-- The loop exits from state `s`: by `return` at its first test (source line 83) or by
`break` at its second test (source line 92). -/
def exits (s : LoopState) : Prop :=
  s.outcode0 ||| s.outcode1 = 0 ∨ s.outcode0 &&& s.outcode1 ≠ 0

/-- The states in which the loop of `CohenSutherlandLineClip(a, b, rect)` starts an
iteration: the initial state, and the state after the clipping branch whenever an
iteration reaches that branch. -/
inductive Reachable (rect : Rect) (a b : Point) : LoopState → Prop
  | init : Reachable rect a b (initState a b rect)
  | step (s : LoopState) : Reachable rect a b s → ¬ (s.outcode0 ||| s.outcode1 = 0) →
      s.outcode0 &&& s.outcode1 = 0 → Reachable rect a b (clipBranch rect s)

/-- A polyline of at least two points, all of them in the closed rectangle. -/
def GoodLine (rect : Rect) (l : Line) : Prop :=
  2 ≤ l.length ∧ ∀ p ∈ l, inRect rect p

/-- The point `p` lies on the boundary line that the edge `e` names; nothing is required
for `NoEdge`. -/
def onEdge (rect : Rect) (e : Edge) (p : Point) : Prop :=
  match e with
  | Edge.NoEdge => True
  | Edge.Left => p.1 = rect.xMin
  | Edge.Right => p.1 = rect.xMax
  | Edge.Bottom => p.2 = rect.yMin
  | Edge.Top => p.2 = rect.yMax

/-- The last recorded outcode of an endpoint that is still outside is its current
outcode, and the edge recorded for an endpoint that is inside names a boundary line the
endpoint lies on. -/
def EdgeInv (rect : Rect) (s : LoopState) : Prop :=
  (s.outcode0 ≠ 0 → s.lastEdge0 = s.outcode0) ∧
  (s.outcode0 = 0 → onEdge rect (toEdge s.lastEdge0) (s.x0, s.y0)) ∧
  (s.outcode1 ≠ 0 → s.lastEdge1 = s.outcode1) ∧
  (s.outcode1 = 0 → onEdge rect (toEdge s.lastEdge1) (s.x1, s.y1))

/-- The loop state with the roles of the two endpoints exchanged. -/
def swapState (s : LoopState) : LoopState :=
  { x0 := s.x1, y0 := s.y1, x1 := s.x0, y1 := s.y0,
    outcode0 := s.outcode1, outcode1 := s.outcode0,
    lastEdge0 := s.lastEdge1, lastEdge1 := s.lastEdge0 }

/-- The clip result with start and end, and their edges, exchanged. -/
def swapResult (r : ClipResult) : ClipResult :=
  { startClipEdge := r.endClipEdge, endClipEdge := r.startClipEdge,
    start := r.«end», «end» := r.start }

/-! ## The program over doubles that may be NaN

The same source text with coordinates of type `Dbl`: a `double` that is NaN or an exact
number. Comparisons with NaN are false and arithmetic propagates NaN, as in IEEE 754;
infinities, overflow and rounding are not modelled, and arithmetic on numbers is that
of `ℚ`. -/

/-- A `double` as far as this model goes: NaN, or an exact number. -/
inductive Dbl where
  | nan
  | num (q : ℚ)
deriving DecidableEq

/-- Addition of doubles: NaN as soon as an operand is NaN. -/
def Dbl.add (x y : Dbl) : Dbl :=
  match x with
  | Dbl.nan => Dbl.nan
  | Dbl.num a =>
    match y with
    | Dbl.nan => Dbl.nan
    | Dbl.num b => Dbl.num (a + b)

/-- Subtraction of doubles: NaN as soon as an operand is NaN. -/
def Dbl.sub (x y : Dbl) : Dbl :=
  match x with
  | Dbl.nan => Dbl.nan
  | Dbl.num a =>
    match y with
    | Dbl.nan => Dbl.nan
    | Dbl.num b => Dbl.num (a - b)

/-- Multiplication of doubles: NaN as soon as an operand is NaN. -/
def Dbl.mul (x y : Dbl) : Dbl :=
  match x with
  | Dbl.nan => Dbl.nan
  | Dbl.num a =>
    match y with
    | Dbl.nan => Dbl.nan
    | Dbl.num b => Dbl.num (a * b)

/-- Division of doubles: NaN as soon as an operand is NaN. On numbers it is the division
of `ℚ`, for which `a / 0 = 0`; on inputs without NaN the clipping branch does not divide
by zero (`denominators_ne_zero`). -/
def Dbl.div (x y : Dbl) : Dbl :=
  match x with
  | Dbl.nan => Dbl.nan
  | Dbl.num a =>
    match y with
    | Dbl.nan => Dbl.nan
    | Dbl.num b => Dbl.num (a / b)

/-- Comparison `x < y` of doubles: false as soon as an operand is NaN. -/
def Dbl.lt (x y : Dbl) : Prop :=
  match x with
  | Dbl.nan => False
  | Dbl.num a =>
    match y with
    | Dbl.nan => False
    | Dbl.num b => a < b

/-- Comparison `x <= y` of doubles: false as soon as an operand is NaN. -/
def Dbl.le (x y : Dbl) : Prop :=
  match x with
  | Dbl.nan => False
  | Dbl.num a =>
    match y with
    | Dbl.nan => False
    | Dbl.num b => a ≤ b

instance : Add Dbl := ⟨Dbl.add⟩

instance : Sub Dbl := ⟨Dbl.sub⟩

instance : Mul Dbl := ⟨Dbl.mul⟩

instance : Div Dbl := ⟨Dbl.div⟩

instance : LT Dbl := ⟨Dbl.lt⟩

instance : LE Dbl := ⟨Dbl.le⟩

instance Dbl.decLt : (x y : Dbl) → Decidable (x < y)
  | Dbl.nan, _ => isFalse (fun h => h)
  | Dbl.num _, Dbl.nan => isFalse (fun h => h)
  | Dbl.num a, Dbl.num b => inferInstanceAs (Decidable (a < b))

instance Dbl.decLe : (x y : Dbl) → Decidable (x ≤ y)
  | Dbl.nan, _ => isFalse (fun h => h)
  | Dbl.num _, Dbl.nan => isFalse (fun h => h)
  | Dbl.num a, Dbl.num b => inferInstanceAs (Decidable (a ≤ b))

/-- Source type `using Point = std::array<double, 2>`, over `Dbl`. -/
abbrev ieee.Point := Dbl × Dbl

/-- Source type `using Line = std::vector<Point>`, over `Dbl`. -/
abbrev ieee.Line := List ieee.Point

/-- Source type `struct Rect`, over `Dbl`. -/
structure ieee.Rect where
  xMin : Dbl
  xMax : Dbl
  yMin : Dbl
  yMax : Dbl
deriving DecidableEq

/-- Source type `struct ClipResult`, over `Dbl`. -/
structure ieee.ClipResult where
  startClipEdge : Edge
  endClipEdge : Edge
  start : ieee.Point
  «end» : ieee.Point
deriving DecidableEq

/-- Function `ComputeOutCode(x, y, rect)` (source lines 23-42), over `Dbl`. -/
def ieee.ComputeOutCode (x y : Dbl) (rect : ieee.Rect) : OutCode :=
  let code : OutCode := INSIDE
  let code : OutCode :=
    if x < rect.xMin then code ||| LEFT
    else if x > rect.xMax then code ||| RIGHT
    else code
  let code : OutCode :=
    if y < rect.yMin then code ||| BOTTOM
    else if y > rect.yMax then code ||| TOP
    else code
  code

/-- The local variables of `CohenSutherlandLineClip` that change in its loop, over
`Dbl`. -/
structure ieee.LoopState where
  x0 : Dbl
  y0 : Dbl
  x1 : Dbl
  y1 : Dbl
  outcode0 : OutCode
  outcode1 : OutCode
  lastEdge0 : OutCode
  lastEdge1 : OutCode
deriving DecidableEq

/-- The state on entry to the loop (source lines 65-80), over `Dbl`. -/
def ieee.initState (a b : ieee.Point) (rect : ieee.Rect) : ieee.LoopState :=
  { x0 := a.1, y0 := a.2, x1 := b.1, y1 := b.2,
    outcode0 := ieee.ComputeOutCode a.1 a.2 rect,
    outcode1 := ieee.ComputeOutCode b.1 b.2 rect,
    lastEdge0 := ieee.ComputeOutCode a.1 a.2 rect,
    lastEdge1 := ieee.ComputeOutCode b.1 b.2 rect }

/-- The outcode selected at source line 102, over `Dbl`. -/
def ieee.outcodeOut (s : ieee.LoopState) : OutCode :=
  if s.outcode1 > s.outcode0 then s.outcode1 else s.outcode0

/-- The intersection point computed at source lines 111-123, over `Dbl`; as in the
model over `ℚ`, `(0, 0)` stands for the uninitialised locals. -/
def ieee.intersection (rect : ieee.Rect) (s : ieee.LoopState) : Dbl × Dbl :=
  if ieee.outcodeOut s &&& TOP ≠ 0 then
    (s.x0 + (s.x1 - s.x0) * (rect.yMax - s.y0) / (s.y1 - s.y0), rect.yMax)
  else if ieee.outcodeOut s &&& BOTTOM ≠ 0 then
    (s.x0 + (s.x1 - s.x0) * (rect.yMin - s.y0) / (s.y1 - s.y0), rect.yMin)
  else if ieee.outcodeOut s &&& RIGHT ≠ 0 then
    (rect.xMax, s.y0 + (s.y1 - s.y0) * (rect.xMax - s.x0) / (s.x1 - s.x0))
  else if ieee.outcodeOut s &&& LEFT ≠ 0 then
    (rect.xMin, s.y0 + (s.y1 - s.y0) * (rect.xMin - s.x0) / (s.x1 - s.x0))
  else (Dbl.num 0, Dbl.num 0)

/-- One execution of the clipping branch (source lines 96-142), over `Dbl`. -/
def ieee.clipBranch (rect : ieee.Rect) (s : ieee.LoopState) : ieee.LoopState :=
  let p := ieee.intersection rect s
  if ieee.outcodeOut s = s.outcode0 then
    let oc := ieee.ComputeOutCode p.1 p.2 rect
    { s with x0 := p.1, y0 := p.2, outcode0 := oc,
             lastEdge0 := if oc ≠ 0 then oc else s.lastEdge0 }
  else
    let oc := ieee.ComputeOutCode p.1 p.2 rect
    { s with x1 := p.1, y1 := p.2, outcode1 := oc,
             lastEdge1 := if oc ≠ 0 then oc else s.lastEdge1 }

/-- The `while (true)` loop (source lines 82-143), over `Dbl`, with the same use of
`fuel` as in the model over `ℚ`. -/
def ieee.clipLoop (rect : ieee.Rect) : Nat → ieee.LoopState → Option (Option ieee.ClipResult)
  | fuel, s =>
    if s.outcode0 ||| s.outcode1 = 0 then
      some (some { startClipEdge := toEdge s.lastEdge0, endClipEdge := toEdge s.lastEdge1,
                   start := (s.x0, s.y0), «end» := (s.x1, s.y1) })
    else if s.outcode0 &&& s.outcode1 ≠ 0 then
      some none
    else
      match fuel with
      | 0 => none
      | fuel + 1 => ieee.clipLoop rect fuel (ieee.clipBranch rect s)

/-- Function `cutlines::CohenSutherlandLineClip(a, b, rect)`, over `Dbl`. -/
def ieee.CohenSutherlandLineClip (fuel : Nat) (a b : ieee.Point) (rect : ieee.Rect) :
    Option (Option ieee.ClipResult) :=
  ieee.clipLoop rect fuel (ieee.initState a b rect)

/-- The body of the `for` loop of `clip` (source lines 157-178), over `Dbl`. -/
def ieee.clipFor (fuel : Nat) (rect : ieee.Rect) :
    ieee.Point → List ieee.Point → List ieee.Line → ieee.Line →
      Option (List ieee.Line × ieee.Line)
  | _, [], clippedLines, subLine => some (clippedLines, subLine)
  | prev, p :: rest, clippedLines, subLine =>
    match ieee.CohenSutherlandLineClip fuel prev p rect with
    | none => none
    | some (some clipResult) =>
      if subLine.isEmpty then
        let subLine := [clipResult.start, clipResult.«end»]
        if clipResult.endClipEdge ≠ Edge.NoEdge then
          ieee.clipFor fuel rect p rest (clippedLines ++ [subLine]) []
        else
          ieee.clipFor fuel rect p rest clippedLines subLine
      else
        ieee.clipFor fuel rect p rest clippedLines (subLine ++ [clipResult.«end»])
    | some none =>
      if !subLine.isEmpty then
        ieee.clipFor fuel rect p rest (clippedLines ++ [subLine]) []
      else
        ieee.clipFor fuel rect p rest clippedLines subLine

/-- Function `cutlines::clip(line, rect)` (source lines 148-185), over `Dbl`. -/
def ieee.clip (fuel : Nat) (line : ieee.Line) (rect : ieee.Rect) :
    Option (List ieee.Line) :=
  match line with
  | [] => some []
  | [_] => some []
  | p0 :: p1 :: rest =>
    match ieee.clipFor fuel rect p0 (p1 :: rest) [] [] with
    | none => none
    | some (clippedLines, subLine) =>
      if !subLine.isEmpty then some (clippedLines ++ [subLine]) else some clippedLines

/-- The point `p` lies in the closed rectangle, with the comparisons of doubles: a point
with a NaN coordinate does not. -/
def ieee.inRect (rect : ieee.Rect) (p : ieee.Point) : Prop :=
  rect.xMin ≤ p.1 ∧ p.1 ≤ rect.xMax ∧ rect.yMin ≤ p.2 ∧ p.2 ≤ rect.yMax

instance (rect : ieee.Rect) (p : ieee.Point) : Decidable (ieee.inRect rect p) :=
  inferInstanceAs
    (Decidable (rect.xMin ≤ p.1 ∧ p.1 ≤ rect.xMax ∧ rect.yMin ≤ p.2 ∧ p.2 ≤ rect.yMax))

/-- A rectangle with exact bounds as a rectangle of doubles. -/
def toDblRect (rect : Rect) : ieee.Rect :=
  { xMin := Dbl.num rect.xMin, xMax := Dbl.num rect.xMax,
    yMin := Dbl.num rect.yMin, yMax := Dbl.num rect.yMax }

/-- Bitwise AND of every outcode value with every single-bit constant. -/
theorem outcode_land_table :
    (((0 : Nat) &&& 1) = 0) ∧ (((0 : Nat) &&& 2) = 0) ∧ (((0 : Nat) &&& 4) = 0) ∧
    (((0 : Nat) &&& 8) = 0) ∧ (((1 : Nat) &&& 1) = 1) ∧ (((1 : Nat) &&& 2) = 0) ∧
    (((1 : Nat) &&& 4) = 0) ∧ (((1 : Nat) &&& 8) = 0) ∧ (((2 : Nat) &&& 1) = 0) ∧
    (((2 : Nat) &&& 2) = 2) ∧ (((2 : Nat) &&& 4) = 0) ∧ (((2 : Nat) &&& 8) = 0) ∧
    (((4 : Nat) &&& 1) = 0) ∧ (((4 : Nat) &&& 2) = 0) ∧ (((4 : Nat) &&& 4) = 4) ∧
    (((4 : Nat) &&& 8) = 0) ∧ (((5 : Nat) &&& 1) = 1) ∧ (((5 : Nat) &&& 2) = 0) ∧
    (((5 : Nat) &&& 4) = 4) ∧ (((5 : Nat) &&& 8) = 0) ∧ (((6 : Nat) &&& 1) = 0) ∧
    (((6 : Nat) &&& 2) = 2) ∧ (((6 : Nat) &&& 4) = 4) ∧ (((6 : Nat) &&& 8) = 0) ∧
    (((8 : Nat) &&& 1) = 0) ∧ (((8 : Nat) &&& 2) = 0) ∧ (((8 : Nat) &&& 4) = 0) ∧
    (((8 : Nat) &&& 8) = 8) ∧ (((9 : Nat) &&& 1) = 1) ∧ (((9 : Nat) &&& 2) = 0) ∧
    (((9 : Nat) &&& 4) = 0) ∧ (((9 : Nat) &&& 8) = 8) ∧ (((10 : Nat) &&& 1) = 0) ∧
    (((10 : Nat) &&& 2) = 2) ∧ (((10 : Nat) &&& 4) = 0) ∧ (((10 : Nat) &&& 8) = 8) := by
  decide

theorem ComputeOutCode_mem (x y : ℚ) (rect : Rect) :
    ComputeOutCode x y rect ∈ outcodeValues := by
  unfold ComputeOutCode
  simp only [INSIDE, LEFT, RIGHT, BOTTOM, TOP]
  split_ifs <;> decide

theorem ComputeOutCode_left (x y : ℚ) (rect : Rect) :
    ComputeOutCode x y rect &&& LEFT ≠ 0 ↔ x < rect.xMin := by
  unfold ComputeOutCode
  simp only [INSIDE, LEFT, RIGHT, BOTTOM, TOP]
  split_ifs <;> simp_all [outcode_land_table]

theorem ComputeOutCode_right (x y : ℚ) (rect : Rect) :
    ComputeOutCode x y rect &&& RIGHT ≠ 0 ↔ ¬ x < rect.xMin ∧ x > rect.xMax := by
  unfold ComputeOutCode
  simp only [INSIDE, LEFT, RIGHT, BOTTOM, TOP]
  split_ifs <;> simp_all [outcode_land_table]

theorem ComputeOutCode_bottom (x y : ℚ) (rect : Rect) :
    ComputeOutCode x y rect &&& BOTTOM ≠ 0 ↔ y < rect.yMin := by
  unfold ComputeOutCode
  simp only [INSIDE, LEFT, RIGHT, BOTTOM, TOP]
  split_ifs <;> simp_all [outcode_land_table]

theorem ComputeOutCode_top (x y : ℚ) (rect : Rect) :
    ComputeOutCode x y rect &&& TOP ≠ 0 ↔ ¬ y < rect.yMin ∧ y > rect.yMax := by
  unfold ComputeOutCode
  simp only [INSIDE, LEFT, RIGHT, BOTTOM, TOP]
  split_ifs <;> simp_all [outcode_land_table]

theorem ComputeOutCode_eq_zero (x y : ℚ) (rect : Rect) :
    ComputeOutCode x y rect = 0 ↔ inRect rect (x, y) := by
  unfold ComputeOutCode inRect
  simp only [INSIDE, LEFT, RIGHT, BOTTOM, TOP]
  split_ifs <;> simp_all [outcode_land_table]

theorem lor_eq_zero_iff (o0 o1 : Nat) : o0 ||| o1 = 0 ↔ o0 = 0 ∧ o1 = 0 := by
  constructor
  · intro h
    refine ⟨Nat.eq_of_testBit_eq fun i => ?_, Nat.eq_of_testBit_eq fun i => ?_⟩
    · have := congrArg (fun n => n.testBit i) h
      simp only [Nat.testBit_or, Nat.zero_testBit, Bool.or_eq_false_iff] at this
      simp [this.1]
    · have := congrArg (fun n => n.testBit i) h
      simp only [Nat.testBit_or, Nat.zero_testBit, Bool.or_eq_false_iff] at this
      simp [this.2]
  · rintro ⟨rfl, rfl⟩
    rfl

/-- Two outcode values have a non-zero bitwise AND exactly when they share one of the
four bits. -/
theorem land_ne_zero_iff_shared :
    ∀ o0 ∈ outcodeValues, ∀ o1 ∈ outcodeValues,
      (o0 &&& o1 ≠ 0 ↔
        (o0 &&& LEFT ≠ 0 ∧ o1 &&& LEFT ≠ 0) ∨ (o0 &&& RIGHT ≠ 0 ∧ o1 &&& RIGHT ≠ 0) ∨
        (o0 &&& BOTTOM ≠ 0 ∧ o1 &&& BOTTOM ≠ 0) ∨ (o0 &&& TOP ≠ 0 ∧ o1 &&& TOP ≠ 0)) := by
  decide

/-- A non-zero outcode value has one of the four bits set. -/
theorem outcode_bits_of_ne_zero :
    ∀ o ∈ outcodeValues, o ≠ 0 →
      o &&& TOP ≠ 0 ∨ o &&& BOTTOM ≠ 0 ∨ o &&& RIGHT ≠ 0 ∨ o &&& LEFT ≠ 0 := by
  decide

theorem bitCount_le_two : ∀ o ∈ outcodeValues, bitCount o ≤ 2 := by
  decide

theorem bitCount_eq_zero : ∀ o ∈ outcodeValues, bitCount o = 0 → o = 0 := by
  decide

theorem indicator_le (P Q : Prop) [Decidable P] [Decidable Q] (h : P → Q) :
    (if P then 1 else 0 : Nat) ≤ (if Q then 1 else 0) := by
  split_ifs <;> simp_all

theorem indicator_lt (P Q : Prop) [Decidable P] [Decidable Q] (hP : ¬ P) (hQ : Q) :
    (if P then 1 else 0 : Nat) < (if Q then 1 else 0) := by
  simp [hP, hQ]

/-- Clearing a bit without setting a new one lowers the bit count. -/
theorem bitCount_lt_of_subset (o o' K : Nat)
    (hK : K = LEFT ∨ K = RIGHT ∨ K = BOTTOM ∨ K = TOP)
    (hsub : ∀ K', K' = LEFT ∨ K' = RIGHT ∨ K' = BOTTOM ∨ K' = TOP →
      o' &&& K' ≠ 0 → o &&& K' ≠ 0)
    (hclr : o' &&& K = 0) (hset : o &&& K ≠ 0) : bitCount o' < bitCount o := by
  have hL := indicator_le _ _ (hsub LEFT (Or.inl rfl))
  have hR := indicator_le _ _ (hsub RIGHT (Or.inr (Or.inl rfl)))
  have hB := indicator_le _ _ (hsub BOTTOM (Or.inr (Or.inr (Or.inl rfl))))
  have hT := indicator_le _ _ (hsub TOP (Or.inr (Or.inr (Or.inr rfl))))
  have hlt := indicator_lt (o' &&& K ≠ 0) (o &&& K ≠ 0) (by simp [hclr]) hset
  unfold bitCount
  rcases hK with h | h | h | h <;> rw [h] at hlt <;> linarith

/-! ## Arithmetic of one coordinate along the line `u ↦ p + u * d` -/

theorem lin_param (p d t0 t1 c v0 v1 : ℚ) (hv0 : v0 = p + t0 * d) (hv1 : v1 = p + t1 * d)
    (hne : v1 ≠ v0) : c = p + (t0 + (c - v0) / (v1 - v0) * (t1 - t0)) * d := by
  have hD : v1 - v0 ≠ 0 := sub_ne_zero.mpr hne
  have hE : (t1 - t0) * d = v1 - v0 := by rw [hv0, hv1]; ring
  have : (c - v0) / (v1 - v0) * (t1 - t0) * d = c - v0 := by
    rw [mul_assoc, hE]; field_simp
  rw [hv0] at this ⊢
  linarith

theorem lin_other (q e t0 t1 c v0 v1 g0 g1 : ℚ) (hg0 : g0 = q + t0 * e)
    (hg1 : g1 = q + t1 * e) :
    g0 + (g1 - g0) * (c - v0) / (v1 - v0) =
      q + (t0 + (c - v0) / (v1 - v0) * (t1 - t0)) * e := by
  rw [hg0, hg1]; ring

/-- The start point is above `c`, the end point is not: the crossing parameter lies in
`(t0, t1]` and every point that is not above `c` comes no earlier. -/
theorem cross_start_upper (p d t0 t1 c v0 v1 : ℚ) (hv0 : v0 = p + t0 * d)
    (hv1 : v1 = p + t1 * d) (h01 : t0 ≤ t1) (h0 : c < v0) (h1 : v1 ≤ c) :
    t0 < t0 + (c - v0) / (v1 - v0) * (t1 - t0) ∧
    t0 + (c - v0) / (v1 - v0) * (t1 - t0) ≤ t1 ∧
    ∀ u, p + u * d ≤ c → t0 + (c - v0) / (v1 - v0) * (t1 - t0) ≤ u := by
  have hD : v1 - v0 < 0 := by linarith
  have hne : v1 ≠ v0 := by intro h; rw [h] at hD; simp at hD
  have hE : (t1 - t0) * d = v1 - v0 := by rw [hv0, hv1]; ring
  have ht : 0 < t1 - t0 := by
    rcases eq_or_lt_of_le h01 with h | h
    · rw [h] at hE; simp at hE; rw [← hE] at hD; simp at hD
    · linarith
  have hd : d < 0 := by
    by_contra hcon
    push_neg at hcon
    have := mul_nonneg ht.le hcon
    linarith
  have hr0 : 0 < (c - v0) / (v1 - v0) := div_pos_of_neg_of_neg (by linarith) hD
  have hr1 : (c - v0) / (v1 - v0) ≤ 1 := (div_le_one_of_neg hD).mpr (by linarith)
  have hc := lin_param p d t0 t1 c v0 v1 hv0 hv1 hne
  refine ⟨?_, ?_, ?_⟩
  · have := mul_pos hr0 ht
    linarith
  · have := mul_le_mul_of_nonneg_right hr1 ht.le
    linarith
  · intro u hu
    by_contra hcon
    push_neg at hcon
    have := mul_lt_mul_of_neg_right hcon hd
    linarith

/-- The start point is below `c`, the end point is not. -/
theorem cross_start_lower (p d t0 t1 c v0 v1 : ℚ) (hv0 : v0 = p + t0 * d)
    (hv1 : v1 = p + t1 * d) (h01 : t0 ≤ t1) (h0 : v0 < c) (h1 : c ≤ v1) :
    t0 < t0 + (c - v0) / (v1 - v0) * (t1 - t0) ∧
    t0 + (c - v0) / (v1 - v0) * (t1 - t0) ≤ t1 ∧
    ∀ u, c ≤ p + u * d → t0 + (c - v0) / (v1 - v0) * (t1 - t0) ≤ u := by
  have h := cross_start_upper (-p) (-d) t0 t1 (-c) (-v0) (-v1) (by rw [hv0]; ring)
    (by rw [hv1]; ring) h01 (by linarith) (by linarith)
  have e : (-c - -v0) / (-v1 - -v0) = (c - v0) / (v1 - v0) := by
    rw [show -c - -v0 = -(c - v0) by ring, show -v1 - -v0 = -(v1 - v0) by ring, neg_div_neg_eq]
  rw [e] at h
  refine ⟨h.1, h.2.1, fun u hu => h.2.2 u (by linarith)⟩

/-- The end point is above `c`, the start point is not: the crossing parameter lies in
`[t0, t1)` and every point that is not above `c` comes no later. -/
theorem cross_end_upper (p d t0 t1 c v0 v1 : ℚ) (hv0 : v0 = p + t0 * d)
    (hv1 : v1 = p + t1 * d) (h01 : t0 ≤ t1) (h1 : c < v1) (h0 : v0 ≤ c) :
    t0 ≤ t0 + (c - v0) / (v1 - v0) * (t1 - t0) ∧
    t0 + (c - v0) / (v1 - v0) * (t1 - t0) < t1 ∧
    ∀ u, p + u * d ≤ c → u ≤ t0 + (c - v0) / (v1 - v0) * (t1 - t0) := by
  have hD : 0 < v1 - v0 := by linarith
  have hne : v1 ≠ v0 := by intro h; rw [h] at hD; simp at hD
  have hE : (t1 - t0) * d = v1 - v0 := by rw [hv0, hv1]; ring
  have ht : 0 < t1 - t0 := by
    rcases eq_or_lt_of_le h01 with h | h
    · rw [h] at hE; simp at hE; rw [← hE] at hD; simp at hD
    · linarith
  have hd : 0 < d := by
    by_contra hcon
    push_neg at hcon
    have := mul_nonpos_of_nonneg_of_nonpos ht.le hcon
    linarith
  have hr0 : 0 ≤ (c - v0) / (v1 - v0) := div_nonneg (by linarith) hD.le
  have hr1 : (c - v0) / (v1 - v0) < 1 := (div_lt_one hD).mpr (by linarith)
  have hc := lin_param p d t0 t1 c v0 v1 hv0 hv1 hne
  refine ⟨?_, ?_, ?_⟩
  · have := mul_nonneg hr0 ht.le
    linarith
  · have := mul_lt_mul_of_pos_right hr1 ht
    linarith
  · intro u hu
    by_contra hcon
    push_neg at hcon
    have := mul_lt_mul_of_pos_right hcon hd
    linarith

/-- The end point is below `c`, the start point is not. -/
theorem cross_end_lower (p d t0 t1 c v0 v1 : ℚ) (hv0 : v0 = p + t0 * d)
    (hv1 : v1 = p + t1 * d) (h01 : t0 ≤ t1) (h1 : v1 < c) (h0 : c ≤ v0) :
    t0 ≤ t0 + (c - v0) / (v1 - v0) * (t1 - t0) ∧
    t0 + (c - v0) / (v1 - v0) * (t1 - t0) < t1 ∧
    ∀ u, c ≤ p + u * d → u ≤ t0 + (c - v0) / (v1 - v0) * (t1 - t0) := by
  have h := cross_end_upper (-p) (-d) t0 t1 (-c) (-v0) (-v1) (by rw [hv0]; ring)
    (by rw [hv1]; ring) h01 (by linarith) (by linarith)
  have e : (-c - -v0) / (-v1 - -v0) = (c - v0) / (v1 - v0) := by
    rw [show -c - -v0 = -(c - v0) by ring, show -v1 - -v0 = -(v1 - v0) by ring, neg_div_neg_eq]
  rw [e] at h
  refine ⟨h.1, h.2.1, fun u hu => h.2.2 u (by linarith)⟩

/-- A coordinate at a parameter between `t0` and `t1` lies between the coordinates at
`t0` and `t1`. -/
theorem lin_between (p d t0 t1 u : ℚ) (h0 : t0 ≤ u) (h1 : u ≤ t1) :
    (p + u * d ≤ p + t0 * d ∨ p + u * d ≤ p + t1 * d) ∧
    (p + t0 * d ≤ p + u * d ∨ p + t1 * d ≤ p + u * d) := by
  rcases le_total 0 d with hd | hd
  · exact ⟨Or.inr (by nlinarith), Or.inl (by nlinarith)⟩
  · exact ⟨Or.inl (by nlinarith), Or.inr (by nlinarith)⟩

/-! ## The loop of `CohenSutherlandLineClip` -/

theorem clipLoop_accept (rect : Rect) (fuel : Nat) (s : LoopState)
    (h : s.outcode0 ||| s.outcode1 = 0) :
    clipLoop rect fuel s = some (some (acceptResult s)) := by
  cases fuel <;> simp [clipLoop, h, acceptResult]

theorem clipLoop_reject (rect : Rect) (fuel : Nat) (s : LoopState)
    (h : s.outcode0 &&& s.outcode1 ≠ 0) :
    clipLoop rect fuel s = some none := by
  have h' : ¬ (s.outcode0 ||| s.outcode1 = 0) := by
    intro hz
    rcases (lor_eq_zero_iff _ _).mp hz with ⟨h0, h1⟩
    rw [h0, h1] at h
    exact h rfl
  cases fuel <;> simp [clipLoop, h, h']

theorem clipLoop_step (rect : Rect) (fuel : Nat) (s : LoopState)
    (ha : ¬ (s.outcode0 ||| s.outcode1 = 0)) (hr : s.outcode0 &&& s.outcode1 = 0) :
    clipLoop rect (fuel + 1) s = clipLoop rect fuel (clipBranch rect s) := by
  rw [clipLoop]
  simp [ha, hr]

theorem clipLoop_zero (rect : Rect) (s : LoopState)
    (ha : ¬ (s.outcode0 ||| s.outcode1 = 0)) (hr : s.outcode0 &&& s.outcode1 = 0) :
    clipLoop rect 0 s = none := by
  rw [clipLoop]
  simp [ha, hr]

/-- Loop rule: a property kept by every execution of the clipping branch holds in the
state in which the loop exits, and the result is read off that state. -/
theorem clipLoop_final (rect : Rect) (P : LoopState → Prop)
    (hstep : ∀ s, P s → ¬ (s.outcode0 ||| s.outcode1 = 0) → s.outcode0 &&& s.outcode1 = 0 →
      P (clipBranch rect s)) :
    ∀ (fuel : Nat) (s : LoopState), P s → ∀ res, clipLoop rect fuel s = some res →
      ∃ s', P s' ∧
        ((s'.outcode0 ||| s'.outcode1 = 0 ∧ res = some (acceptResult s')) ∨
         (s'.outcode0 &&& s'.outcode1 ≠ 0 ∧ res = none)) := by
  intro fuel
  induction fuel with
  | zero =>
    intro s hP res hres
    by_cases ha : s.outcode0 ||| s.outcode1 = 0
    · rw [clipLoop_accept rect 0 s ha] at hres
      exact ⟨s, hP, Or.inl ⟨ha, (Option.some.inj hres).symm⟩⟩
    · by_cases hr : s.outcode0 &&& s.outcode1 = 0
      · rw [clipLoop_zero rect s ha hr] at hres
        cases hres
      · rw [clipLoop_reject rect 0 s hr] at hres
        exact ⟨s, hP, Or.inr ⟨hr, (Option.some.inj hres).symm⟩⟩
  | succ n ih =>
    intro s hP res hres
    by_cases ha : s.outcode0 ||| s.outcode1 = 0
    · rw [clipLoop_accept rect _ s ha] at hres
      exact ⟨s, hP, Or.inl ⟨ha, (Option.some.inj hres).symm⟩⟩
    · by_cases hr : s.outcode0 &&& s.outcode1 = 0
      · rw [clipLoop_step rect n s ha hr] at hres
        exact ih (clipBranch rect s) (hstep s hP ha hr) res hres
      · rw [clipLoop_reject rect _ s hr] at hres
        exact ⟨s, hP, Or.inr ⟨hr, (Option.some.inj hres).symm⟩⟩

theorem Inv_init (a b : Point) (rect : Rect) : Inv a b rect (initState a b rect) 0 1 where
  oc0 := rfl
  oc1 := rfl
  h0 := le_refl _
  h01 := zero_le_one
  h1 := le_refl _
  x0 := by simp [initState]
  y0 := by simp [initState]
  x1 := by simp [initState]
  y1 := by simp [initState]
  vis := fun u hu0 hu1 _ => ⟨hu0, hu1⟩

theorem outcodeOut_cases (s : LoopState) :
    outcodeOut s = s.outcode0 ∨ (outcodeOut s = s.outcode1 ∧ outcodeOut s ≠ s.outcode0) := by
  unfold outcodeOut
  split_ifs with h
  · exact Or.inr ⟨rfl, Nat.ne_of_gt h⟩
  · exact Or.inl rfl

theorem outcodeOut_ne_zero (s : LoopState) (ha : ¬ (s.outcode0 ||| s.outcode1 = 0)) :
    outcodeOut s ≠ 0 := by
  unfold outcodeOut
  split_ifs with h
  · exact Nat.not_eq_zero_of_lt h
  · intro h0
    apply ha
    rw [lor_eq_zero_iff]
    exact ⟨h0, Nat.le_zero.mp (h0 ▸ Nat.not_lt.mp h)⟩

/-- With a well-formed rectangle the RIGHT and TOP bits are plain comparisons. -/
theorem ComputeOutCode_right_wf (x y : ℚ) (rect : Rect) (hwf : rect.WellFormed) :
    ComputeOutCode x y rect &&& RIGHT ≠ 0 ↔ x > rect.xMax := by
  rw [ComputeOutCode_right]
  constructor
  · exact fun h => h.2
  · exact fun h => ⟨by have := hwf.1; intro hc; linarith, h⟩

theorem ComputeOutCode_top_wf (x y : ℚ) (rect : Rect) (hwf : rect.WellFormed) :
    ComputeOutCode x y rect &&& TOP ≠ 0 ↔ y > rect.yMax := by
  rw [ComputeOutCode_top]
  constructor
  · exact fun h => h.2
  · exact fun h => ⟨by have := hwf.2; intro hc; linarith, h⟩

/-- The outcode bits of a point of the line between two parameters are among the bits of
the points at the two parameters. -/
theorem bits_between (a b : Point) (rect : Rect) (hwf : rect.WellFormed) (t0 t1 u : ℚ)
    (h0 : t0 ≤ u) (h1 : u ≤ t1) (K : Nat)
    (hK : K = LEFT ∨ K = RIGHT ∨ K = BOTTOM ∨ K = TOP)
    (h : ComputeOutCode (pointAt a b u).1 (pointAt a b u).2 rect &&& K ≠ 0) :
    ComputeOutCode (pointAt a b t0).1 (pointAt a b t0).2 rect &&& K ≠ 0 ∨
    ComputeOutCode (pointAt a b t1).1 (pointAt a b t1).2 rect &&& K ≠ 0 := by
  have hx := lin_between a.1 (b.1 - a.1) t0 t1 u h0 h1
  have hy := lin_between a.2 (b.2 - a.2) t0 t1 u h0 h1
  rcases hK with rfl | rfl | rfl | rfl
  · rw [ComputeOutCode_left] at h ⊢
    rw [ComputeOutCode_left]
    simp only [pointAt] at h ⊢
    rcases hx.2 with hx | hx
    · exact Or.inl (by linarith)
    · exact Or.inr (by linarith)
  · rw [ComputeOutCode_right_wf _ _ _ hwf] at h ⊢
    rw [ComputeOutCode_right_wf _ _ _ hwf]
    simp only [pointAt] at h ⊢
    rcases hx.1 with hx | hx
    · exact Or.inl (by linarith)
    · exact Or.inr (by linarith)
  · rw [ComputeOutCode_bottom] at h ⊢
    rw [ComputeOutCode_bottom]
    simp only [pointAt] at h ⊢
    rcases hy.2 with hy | hy
    · exact Or.inl (by linarith)
    · exact Or.inr (by linarith)
  · rw [ComputeOutCode_top_wf _ _ _ hwf] at h ⊢
    rw [ComputeOutCode_top_wf _ _ _ hwf]
    simp only [pointAt] at h ⊢
    rcases hy.1 with hy | hy
    · exact Or.inl (by linarith)
    · exact Or.inr (by linarith)

/-- In a state of the clipping branch no outcode bit is shared by the two endpoints. -/
theorem not_shared (o0 o1 : Nat) (h0 : o0 ∈ outcodeValues) (h1 : o1 ∈ outcodeValues)
    (hr : o0 &&& o1 = 0) (K : Nat) (hK : K = LEFT ∨ K = RIGHT ∨ K = BOTTOM ∨ K = TOP)
    (hk0 : o0 &&& K ≠ 0) (hk1 : o1 &&& K ≠ 0) : False := by
  have h := (land_ne_zero_iff_shared o0 h0 o1 h1).mpr
  apply h _ hr
  rcases hK with rfl | rfl | rfl | rfl
  · exact Or.inl ⟨hk0, hk1⟩
  · exact Or.inr (Or.inl ⟨hk0, hk1⟩)
  · exact Or.inr (Or.inr (Or.inl ⟨hk0, hk1⟩))
  · exact Or.inr (Or.inr (Or.inr ⟨hk0, hk1⟩))

/-- The intersection point computed in the clipping branch: it is the point of the
segment `a b` at a parameter `τ` between the current parameters, it clears a bit `K` of
the selected outcode, and the piece that is cut off holds no point of the rectangle. -/
theorem intersection_spec (a b : Point) (rect : Rect) (hwf : rect.WellFormed)
    (s : LoopState) (t0 t1 : ℚ) (hI : Inv a b rect s t0 t1)
    (ha : ¬ (s.outcode0 ||| s.outcode1 = 0)) (hr : s.outcode0 &&& s.outcode1 = 0) :
    ∃ τ K, (K = LEFT ∨ K = RIGHT ∨ K = BOTTOM ∨ K = TOP) ∧
      intersection rect s = pointAt a b τ ∧
      outcodeOut s &&& K ≠ 0 ∧
      ComputeOutCode (intersection rect s).1 (intersection rect s).2 rect &&& K = 0 ∧
      (outcodeOut s = s.outcode0 →
        t0 < τ ∧ τ ≤ t1 ∧ ∀ u, inRect rect (pointAt a b u) → τ ≤ u) ∧
      (outcodeOut s ≠ s.outcode0 →
        t0 ≤ τ ∧ τ < t1 ∧ ∀ u, inRect rect (pointAt a b u) → u ≤ τ) := by
  have hm0 : s.outcode0 ∈ outcodeValues := by rw [hI.oc0]; exact ComputeOutCode_mem _ _ _
  have hm1 : s.outcode1 ∈ outcodeValues := by rw [hI.oc1]; exact ComputeOutCode_mem _ _ _
  have hns := not_shared s.outcode0 s.outcode1 hm0 hm1 hr
  have hoo := outcodeOut_cases s
  have hmoo : outcodeOut s ∈ outcodeValues := by
    rcases hoo with h | ⟨h, _⟩ <;> rw [h] <;> assumption
  have hbits := outcode_bits_of_ne_zero _ hmoo (outcodeOut_ne_zero s ha)
  have top0 : s.outcode0 &&& TOP ≠ 0 ↔ s.y0 > rect.yMax := by
    rw [hI.oc0]; exact ComputeOutCode_top_wf _ _ _ hwf
  have top1 : s.outcode1 &&& TOP ≠ 0 ↔ s.y1 > rect.yMax := by
    rw [hI.oc1]; exact ComputeOutCode_top_wf _ _ _ hwf
  have bot0 : s.outcode0 &&& BOTTOM ≠ 0 ↔ s.y0 < rect.yMin := by
    rw [hI.oc0]; exact ComputeOutCode_bottom _ _ _
  have bot1 : s.outcode1 &&& BOTTOM ≠ 0 ↔ s.y1 < rect.yMin := by
    rw [hI.oc1]; exact ComputeOutCode_bottom _ _ _
  have right0 : s.outcode0 &&& RIGHT ≠ 0 ↔ s.x0 > rect.xMax := by
    rw [hI.oc0]; exact ComputeOutCode_right_wf _ _ _ hwf
  have right1 : s.outcode1 &&& RIGHT ≠ 0 ↔ s.x1 > rect.xMax := by
    rw [hI.oc1]; exact ComputeOutCode_right_wf _ _ _ hwf
  have left0 : s.outcode0 &&& LEFT ≠ 0 ↔ s.x0 < rect.xMin := by
    rw [hI.oc0]; exact ComputeOutCode_left _ _ _
  have left1 : s.outcode1 &&& LEFT ≠ 0 ↔ s.x1 < rect.xMin := by
    rw [hI.oc1]; exact ComputeOutCode_left _ _ _
  have kT : TOP = LEFT ∨ TOP = RIGHT ∨ TOP = BOTTOM ∨ TOP = TOP := Or.inr (Or.inr (Or.inr rfl))
  have kB : BOTTOM = LEFT ∨ BOTTOM = RIGHT ∨ BOTTOM = BOTTOM ∨ BOTTOM = TOP :=
    Or.inr (Or.inr (Or.inl rfl))
  have kR : RIGHT = LEFT ∨ RIGHT = RIGHT ∨ RIGHT = BOTTOM ∨ RIGHT = TOP := Or.inr (Or.inl rfl)
  have kL : LEFT = LEFT ∨ LEFT = RIGHT ∨ LEFT = BOTTOM ∨ LEFT = TOP := Or.inl rfl
  by_cases hT : outcodeOut s &&& TOP ≠ 0
  ·
    have hi : intersection rect s =
        (s.x0 + (s.x1 - s.x0) * (rect.yMax - s.y0) / (s.y1 - s.y0), rect.yMax) := by
      simp [intersection, hT]
    have hQ : ¬ (ComputeOutCode (intersection rect s).1 (intersection rect s).2 rect
        &&& TOP ≠ 0) := by
      rw [hi]; intro hc; rw [ComputeOutCode_top_wf _ _ _ hwf] at hc; exact lt_irrefl _ hc
    rcases hoo with h | ⟨h1, hne⟩
    · have hT0 := hT
      rw [h] at hT0
      have hy0 := top0.mp hT0
      have hy1 := not_lt.mp (fun hc => hns TOP kT hT0 (top1.mpr hc))
      have hc := cross_start_upper a.2 (b.2 - a.2) t0 t1 rect.yMax s.y0 s.y1 hI.y0 hI.y1 hI.h01 hy0 hy1
      refine ⟨t0 + (rect.yMax - s.y0) / (s.y1 - s.y0) * (t1 - t0), TOP, kT, ?_, hT,
        not_not.mp hQ, fun _ => ⟨hc.1, hc.2.1, fun u hu => hc.2.2 u hu.2.2.2⟩,
        fun hn => absurd h hn⟩
      rw [hi]
      exact Prod.ext
        (lin_other a.1 (b.1 - a.1) t0 t1 rect.yMax s.y0 s.y1 s.x0 s.x1 hI.x0 hI.x1)
        (lin_param a.2 (b.2 - a.2) t0 t1 rect.yMax s.y0 s.y1 hI.y0 hI.y1 (by
          intro he; rw [he] at hy1; exact absurd hy0 (not_lt.mpr hy1)))
    · have hT1 := hT
      rw [h1] at hT1
      have hy1 := top1.mp hT1
      have hy0 := not_lt.mp (fun hc => hns TOP kT (top0.mpr hc) hT1)
      have hc := cross_end_upper a.2 (b.2 - a.2) t0 t1 rect.yMax s.y0 s.y1 hI.y0 hI.y1 hI.h01 hy1 hy0
      refine ⟨t0 + (rect.yMax - s.y0) / (s.y1 - s.y0) * (t1 - t0), TOP, kT, ?_, hT,
        not_not.mp hQ, fun hn => absurd hn hne,
        fun _ => ⟨hc.1, hc.2.1, fun u hu => hc.2.2 u hu.2.2.2⟩⟩
      rw [hi]
      exact Prod.ext
        (lin_other a.1 (b.1 - a.1) t0 t1 rect.yMax s.y0 s.y1 s.x0 s.x1 hI.x0 hI.x1)
        (lin_param a.2 (b.2 - a.2) t0 t1 rect.yMax s.y0 s.y1 hI.y0 hI.y1 (by
          intro he; rw [he] at hy1; exact absurd hy1 (not_lt.mpr hy0)))
  by_cases hB : outcodeOut s &&& BOTTOM ≠ 0
  ·
    have hi : intersection rect s =
        (s.x0 + (s.x1 - s.x0) * (rect.yMin - s.y0) / (s.y1 - s.y0), rect.yMin) := by
      simp [intersection, hT, hB]
    have hQ : ¬ (ComputeOutCode (intersection rect s).1 (intersection rect s).2 rect
        &&& BOTTOM ≠ 0) := by
      rw [hi]; intro hc; rw [ComputeOutCode_bottom] at hc; exact lt_irrefl _ hc
    rcases hoo with h | ⟨h1, hne⟩
    · have hB0 := hB
      rw [h] at hB0
      have hy0 := bot0.mp hB0
      have hy1 := not_lt.mp (fun hc => hns BOTTOM kB hB0 (bot1.mpr hc))
      have hc := cross_start_lower a.2 (b.2 - a.2) t0 t1 rect.yMin s.y0 s.y1 hI.y0 hI.y1 hI.h01 hy0 hy1
      refine ⟨t0 + (rect.yMin - s.y0) / (s.y1 - s.y0) * (t1 - t0), BOTTOM, kB, ?_, hB,
        not_not.mp hQ, fun _ => ⟨hc.1, hc.2.1, fun u hu => hc.2.2 u hu.2.2.1⟩,
        fun hn => absurd h hn⟩
      rw [hi]
      exact Prod.ext
        (lin_other a.1 (b.1 - a.1) t0 t1 rect.yMin s.y0 s.y1 s.x0 s.x1 hI.x0 hI.x1)
        (lin_param a.2 (b.2 - a.2) t0 t1 rect.yMin s.y0 s.y1 hI.y0 hI.y1 (by
          intro he; rw [he] at hy1; exact absurd hy0 (not_lt.mpr hy1)))
    · have hB1 := hB
      rw [h1] at hB1
      have hy1 := bot1.mp hB1
      have hy0 := not_lt.mp (fun hc => hns BOTTOM kB (bot0.mpr hc) hB1)
      have hc := cross_end_lower a.2 (b.2 - a.2) t0 t1 rect.yMin s.y0 s.y1 hI.y0 hI.y1 hI.h01 hy1 hy0
      refine ⟨t0 + (rect.yMin - s.y0) / (s.y1 - s.y0) * (t1 - t0), BOTTOM, kB, ?_, hB,
        not_not.mp hQ, fun hn => absurd hn hne,
        fun _ => ⟨hc.1, hc.2.1, fun u hu => hc.2.2 u hu.2.2.1⟩⟩
      rw [hi]
      exact Prod.ext
        (lin_other a.1 (b.1 - a.1) t0 t1 rect.yMin s.y0 s.y1 s.x0 s.x1 hI.x0 hI.x1)
        (lin_param a.2 (b.2 - a.2) t0 t1 rect.yMin s.y0 s.y1 hI.y0 hI.y1 (by
          intro he; rw [he] at hy1; exact absurd hy1 (not_lt.mpr hy0)))
  by_cases hR : outcodeOut s &&& RIGHT ≠ 0
  ·
    have hi : intersection rect s =
        (rect.xMax, s.y0 + (s.y1 - s.y0) * (rect.xMax - s.x0) / (s.x1 - s.x0)) := by
      simp [intersection, hT, hB, hR]
    have hQ : ¬ (ComputeOutCode (intersection rect s).1 (intersection rect s).2 rect
        &&& RIGHT ≠ 0) := by
      rw [hi]; intro hc; rw [ComputeOutCode_right_wf _ _ _ hwf] at hc; exact lt_irrefl _ hc
    rcases hoo with h | ⟨h1, hne⟩
    · have hR0 := hR
      rw [h] at hR0
      have hx0 := right0.mp hR0
      have hx1 := not_lt.mp (fun hc => hns RIGHT kR hR0 (right1.mpr hc))
      have hc := cross_start_upper a.1 (b.1 - a.1) t0 t1 rect.xMax s.x0 s.x1 hI.x0 hI.x1 hI.h01 hx0 hx1
      refine ⟨t0 + (rect.xMax - s.x0) / (s.x1 - s.x0) * (t1 - t0), RIGHT, kR, ?_, hR,
        not_not.mp hQ, fun _ => ⟨hc.1, hc.2.1, fun u hu => hc.2.2 u hu.2.1⟩,
        fun hn => absurd h hn⟩
      rw [hi]
      exact Prod.ext
        (lin_param a.1 (b.1 - a.1) t0 t1 rect.xMax s.x0 s.x1 hI.x0 hI.x1 (by
          intro he; rw [he] at hx1; exact absurd hx0 (not_lt.mpr hx1)))
        (lin_other a.2 (b.2 - a.2) t0 t1 rect.xMax s.x0 s.x1 s.y0 s.y1 hI.y0 hI.y1)
    · have hR1 := hR
      rw [h1] at hR1
      have hx1 := right1.mp hR1
      have hx0 := not_lt.mp (fun hc => hns RIGHT kR (right0.mpr hc) hR1)
      have hc := cross_end_upper a.1 (b.1 - a.1) t0 t1 rect.xMax s.x0 s.x1 hI.x0 hI.x1 hI.h01 hx1 hx0
      refine ⟨t0 + (rect.xMax - s.x0) / (s.x1 - s.x0) * (t1 - t0), RIGHT, kR, ?_, hR,
        not_not.mp hQ, fun hn => absurd hn hne,
        fun _ => ⟨hc.1, hc.2.1, fun u hu => hc.2.2 u hu.2.1⟩⟩
      rw [hi]
      exact Prod.ext
        (lin_param a.1 (b.1 - a.1) t0 t1 rect.xMax s.x0 s.x1 hI.x0 hI.x1 (by
          intro he; rw [he] at hx1; exact absurd hx1 (not_lt.mpr hx0)))
        (lin_other a.2 (b.2 - a.2) t0 t1 rect.xMax s.x0 s.x1 s.y0 s.y1 hI.y0 hI.y1)
  have hL : outcodeOut s &&& LEFT ≠ 0 := by
    rcases hbits with h | h | h | h
    · exact absurd h hT
    · exact absurd h hB
    · exact absurd h hR
    · exact h
  have hi : intersection rect s =
      (rect.xMin, s.y0 + (s.y1 - s.y0) * (rect.xMin - s.x0) / (s.x1 - s.x0)) := by
    simp [intersection, hT, hB, hR, hL]
  have hQ : ¬ (ComputeOutCode (intersection rect s).1 (intersection rect s).2 rect
      &&& LEFT ≠ 0) := by
    rw [hi]; intro hc; rw [ComputeOutCode_left] at hc; exact lt_irrefl _ hc
  rcases hoo with h | ⟨h1, hne⟩
  · have hL0 := hL
    rw [h] at hL0
    have hx0 := left0.mp hL0
    have hx1 := not_lt.mp (fun hc => hns LEFT kL hL0 (left1.mpr hc))
    have hc := cross_start_lower a.1 (b.1 - a.1) t0 t1 rect.xMin s.x0 s.x1 hI.x0 hI.x1 hI.h01 hx0 hx1
    refine ⟨t0 + (rect.xMin - s.x0) / (s.x1 - s.x0) * (t1 - t0), LEFT, kL, ?_, hL,
      not_not.mp hQ, fun _ => ⟨hc.1, hc.2.1, fun u hu => hc.2.2 u hu.1⟩,
      fun hn => absurd h hn⟩
    rw [hi]
    exact Prod.ext
      (lin_param a.1 (b.1 - a.1) t0 t1 rect.xMin s.x0 s.x1 hI.x0 hI.x1 (by
        intro he; rw [he] at hx1; exact absurd hx0 (not_lt.mpr hx1)))
      (lin_other a.2 (b.2 - a.2) t0 t1 rect.xMin s.x0 s.x1 s.y0 s.y1 hI.y0 hI.y1)
  · have hL1 := hL
    rw [h1] at hL1
    have hx1 := left1.mp hL1
    have hx0 := not_lt.mp (fun hc => hns LEFT kL (left0.mpr hc) hL1)
    have hc := cross_end_lower a.1 (b.1 - a.1) t0 t1 rect.xMin s.x0 s.x1 hI.x0 hI.x1 hI.h01 hx1 hx0
    refine ⟨t0 + (rect.xMin - s.x0) / (s.x1 - s.x0) * (t1 - t0), LEFT, kL, ?_, hL,
      not_not.mp hQ, fun hn => absurd hn hne,
      fun _ => ⟨hc.1, hc.2.1, fun u hu => hc.2.2 u hu.1⟩⟩
    rw [hi]
    exact Prod.ext
      (lin_param a.1 (b.1 - a.1) t0 t1 rect.xMin s.x0 s.x1 hI.x0 hI.x1 (by
        intro he; rw [he] at hx1; exact absurd hx1 (not_lt.mpr hx0)))
      (lin_other a.2 (b.2 - a.2) t0 t1 rect.xMin s.x0 s.x1 s.y0 s.y1 hI.y0 hI.y1)

theorem clipBranch_of_sel (rect : Rect) (s : LoopState) (h : outcodeOut s = s.outcode0) :
    clipBranch rect s =
      { s with
        x0 := (intersection rect s).1, y0 := (intersection rect s).2,
        outcode0 := ComputeOutCode (intersection rect s).1 (intersection rect s).2 rect,
        lastEdge0 :=
          if ComputeOutCode (intersection rect s).1 (intersection rect s).2 rect ≠ 0 then
            ComputeOutCode (intersection rect s).1 (intersection rect s).2 rect
          else s.lastEdge0 } := by
  simp [clipBranch, h]

theorem clipBranch_of_not_sel (rect : Rect) (s : LoopState) (h : outcodeOut s ≠ s.outcode0) :
    clipBranch rect s =
      { s with
        x1 := (intersection rect s).1, y1 := (intersection rect s).2,
        outcode1 := ComputeOutCode (intersection rect s).1 (intersection rect s).2 rect,
        lastEdge1 :=
          if ComputeOutCode (intersection rect s).1 (intersection rect s).2 rect ≠ 0 then
            ComputeOutCode (intersection rect s).1 (intersection rect s).2 rect
          else s.lastEdge1 } := by
  simp [clipBranch, h]

/-- The clipping branch when it moves the start point: the new start point is the
intersection point, at a strictly later parameter; the end point is untouched; a bit of
the old outcode is cleared, and unless the new state is rejected no bit is gained. -/
theorem clipBranch_move0 (a b : Point) (rect : Rect) (hwf : rect.WellFormed)
    (s : LoopState) (t0 t1 : ℚ) (hI : Inv a b rect s t0 t1)
    (ha : ¬ (s.outcode0 ||| s.outcode1 = 0)) (hr : s.outcode0 &&& s.outcode1 = 0)
    (hsel : outcodeOut s = s.outcode0) :
    ∃ τ, t0 < τ ∧ τ ≤ t1 ∧ Inv a b rect (clipBranch rect s) τ t1 ∧
      (clipBranch rect s).outcode1 = s.outcode1 ∧
      (clipBranch rect s).lastEdge1 = s.lastEdge1 ∧
      (clipBranch rect s).x1 = s.x1 ∧ (clipBranch rect s).y1 = s.y1 ∧
      (clipBranch rect s).lastEdge0 =
        (if (clipBranch rect s).outcode0 ≠ 0 then (clipBranch rect s).outcode0
         else s.lastEdge0) ∧
      ((clipBranch rect s).x0, (clipBranch rect s).y0) = intersection rect s ∧
      (∃ K, (K = LEFT ∨ K = RIGHT ∨ K = BOTTOM ∨ K = TOP) ∧ s.outcode0 &&& K ≠ 0 ∧
        (clipBranch rect s).outcode0 &&& K = 0) ∧
      ((clipBranch rect s).outcode0 &&& s.outcode1 = 0 →
        ∀ K', K' = LEFT ∨ K' = RIGHT ∨ K' = BOTTOM ∨ K' = TOP →
          (clipBranch rect s).outcode0 &&& K' ≠ 0 → s.outcode0 &&& K' ≠ 0) := by
  obtain ⟨τ, K, hK, hi, hoK, hQK, h0case, _⟩ :=
    intersection_spec a b rect hwf s t0 t1 hI ha hr
  have hm1 : s.outcode1 ∈ outcodeValues := by rw [hI.oc1]; exact ComputeOutCode_mem _ _ _
  have e0 : ComputeOutCode (pointAt a b t0).1 (pointAt a b t0).2 rect = s.outcode0 := by
    rw [hI.oc0, hI.x0, hI.y0]; rfl
  have e1 : ComputeOutCode (pointAt a b t1).1 (pointAt a b t1).2 rect = s.outcode1 := by
    rw [hI.oc1, hI.x1, hI.y1]; rfl
  have hmQ := ComputeOutCode_mem (intersection rect s).1 (intersection rect s).2 rect
  obtain ⟨hlt, hle, hvis⟩ := h0case hsel
  rw [clipBranch_of_sel rect s hsel]
  refine ⟨τ, hlt, hle, ?_, rfl, rfl, rfl, rfl, rfl, rfl, ⟨K, hK, hsel ▸ hoK, hQK⟩, ?_⟩
  · exact
      { oc0 := rfl
        oc1 := hI.oc1
        h0 := le_trans hI.h0 hlt.le
        h01 := hle
        h1 := hI.h1
        x0 := by rw [hi]; rfl
        y0 := by rw [hi]; rfl
        x1 := hI.x1
        y1 := hI.y1
        vis := fun u hu0 hu1 hin => ⟨hvis u hin, (hI.vis u hu0 hu1 hin).2⟩ }
  · intro hsh K' hK' hb
    have hb' := hb
    simp only [hi] at hb'
    rcases bits_between a b rect hwf t0 t1 τ hlt.le hle K' hK' hb' with h | h
    · rw [e0] at h; exact h
    · rw [e1] at h
      exact absurd h (fun h => not_shared _ _ hmQ hm1 hsh K' hK' hb h)

/-- The clipping branch when it moves the end point. -/
theorem clipBranch_move1 (a b : Point) (rect : Rect) (hwf : rect.WellFormed)
    (s : LoopState) (t0 t1 : ℚ) (hI : Inv a b rect s t0 t1)
    (ha : ¬ (s.outcode0 ||| s.outcode1 = 0)) (hr : s.outcode0 &&& s.outcode1 = 0)
    (hsel : outcodeOut s ≠ s.outcode0) :
    ∃ τ, t0 ≤ τ ∧ τ < t1 ∧ Inv a b rect (clipBranch rect s) t0 τ ∧
      (clipBranch rect s).outcode0 = s.outcode0 ∧
      (clipBranch rect s).lastEdge0 = s.lastEdge0 ∧
      (clipBranch rect s).x0 = s.x0 ∧ (clipBranch rect s).y0 = s.y0 ∧
      (clipBranch rect s).lastEdge1 =
        (if (clipBranch rect s).outcode1 ≠ 0 then (clipBranch rect s).outcode1
         else s.lastEdge1) ∧
      ((clipBranch rect s).x1, (clipBranch rect s).y1) = intersection rect s ∧
      (∃ K, (K = LEFT ∨ K = RIGHT ∨ K = BOTTOM ∨ K = TOP) ∧ s.outcode1 &&& K ≠ 0 ∧
        (clipBranch rect s).outcode1 &&& K = 0) ∧
      (s.outcode0 &&& (clipBranch rect s).outcode1 = 0 →
        ∀ K', K' = LEFT ∨ K' = RIGHT ∨ K' = BOTTOM ∨ K' = TOP →
          (clipBranch rect s).outcode1 &&& K' ≠ 0 → s.outcode1 &&& K' ≠ 0) := by
  obtain ⟨τ, K, hK, hi, hoK, hQK, _, h1case⟩ :=
    intersection_spec a b rect hwf s t0 t1 hI ha hr
  have hm0 : s.outcode0 ∈ outcodeValues := by rw [hI.oc0]; exact ComputeOutCode_mem _ _ _
  have e0 : ComputeOutCode (pointAt a b t0).1 (pointAt a b t0).2 rect = s.outcode0 := by
    rw [hI.oc0, hI.x0, hI.y0]; rfl
  have e1 : ComputeOutCode (pointAt a b t1).1 (pointAt a b t1).2 rect = s.outcode1 := by
    rw [hI.oc1, hI.x1, hI.y1]; rfl
  have hmQ := ComputeOutCode_mem (intersection rect s).1 (intersection rect s).2 rect
  obtain ⟨hle, hlt, hvis⟩ := h1case hsel
  have hsel1 : outcodeOut s = s.outcode1 := by
    rcases outcodeOut_cases s with h | h
    · exact absurd h hsel
    · exact h.1
  rw [clipBranch_of_not_sel rect s hsel]
  refine ⟨τ, hle, hlt, ?_, rfl, rfl, rfl, rfl, rfl, rfl, ⟨K, hK, hsel1 ▸ hoK, hQK⟩, ?_⟩
  · exact
      { oc0 := hI.oc0
        oc1 := rfl
        h0 := hI.h0
        h01 := hle
        h1 := le_trans hlt.le hI.h1
        x0 := hI.x0
        y0 := hI.y0
        x1 := by rw [hi]; rfl
        y1 := by rw [hi]; rfl
        vis := fun u hu0 hu1 hin => ⟨(hI.vis u hu0 hu1 hin).1, hvis u hin⟩ }
  · intro hsh K' hK' hb
    have hb' := hb
    simp only [hi] at hb'
    rcases bits_between a b rect hwf t0 t1 τ hle hlt.le K' hK' hb' with h | h
    · rw [e0] at h
      exact absurd h (fun h => not_shared _ _ hm0 hmQ hsh K' hK' h hb)
    · rw [e1] at h; exact h

/-- One execution of the clipping branch keeps the invariant, and it either leads to a
state that is rejected or lowers the measure. -/
theorem clipBranch_spec (a b : Point) (rect : Rect) (hwf : rect.WellFormed)
    (s : LoopState) (t0 t1 : ℚ) (hI : Inv a b rect s t0 t1)
    (ha : ¬ (s.outcode0 ||| s.outcode1 = 0)) (hr : s.outcode0 &&& s.outcode1 = 0) :
    ∃ t0' t1', Inv a b rect (clipBranch rect s) t0' t1' ∧
      ((clipBranch rect s).outcode0 &&& (clipBranch rect s).outcode1 ≠ 0 ∨
        clipMeasure (clipBranch rect s) < clipMeasure s) := by
  by_cases hsel : outcodeOut s = s.outcode0
  · obtain ⟨τ, _, _, hI', ho1, _, _, _, _, _, ⟨K, hK, hset, hclr⟩, hsub⟩ :=
      clipBranch_move0 a b rect hwf s t0 t1 hI ha hr hsel
    refine ⟨τ, t1, hI', ?_⟩
    by_cases hsh : (clipBranch rect s).outcode0 &&& (clipBranch rect s).outcode1 ≠ 0
    · exact Or.inl hsh
    · right
      rw [ho1] at hsh
      have := bitCount_lt_of_subset s.outcode0 _ K hK (hsub (not_not.mp hsh)) hclr hset
      simp only [clipMeasure, ho1]
      linarith
  · obtain ⟨τ, _, _, hI', ho0, _, _, _, _, _, ⟨K, hK, hset, hclr⟩, hsub⟩ :=
      clipBranch_move1 a b rect hwf s t0 t1 hI ha hr hsel
    refine ⟨t0, τ, hI', ?_⟩
    by_cases hsh : (clipBranch rect s).outcode0 &&& (clipBranch rect s).outcode1 ≠ 0
    · exact Or.inl hsh
    · right
      rw [ho0] at hsh
      have := bitCount_lt_of_subset s.outcode1 _ K hK (hsub (not_not.mp hsh)) hclr hset
      simp only [clipMeasure, ho0]
      linarith

/-- With a well-formed rectangle the loop exits once the fuel is at least the measure of
the state. -/
theorem clipLoop_terminates (a b : Point) (rect : Rect) (hwf : rect.WellFormed) :
    ∀ (fuel : Nat) (s : LoopState) (t0 t1 : ℚ), Inv a b rect s t0 t1 →
      clipMeasure s ≤ fuel → ∃ res, clipLoop rect fuel s = some res := by
  intro fuel
  induction fuel with
  | zero =>
    intro s t0 t1 hI hm
    have hm0 : s.outcode0 ∈ outcodeValues := by rw [hI.oc0]; exact ComputeOutCode_mem _ _ _
    have hm1 : s.outcode1 ∈ outcodeValues := by rw [hI.oc1]; exact ComputeOutCode_mem _ _ _
    have h0 : s.outcode0 = 0 := bitCount_eq_zero _ hm0 (by unfold clipMeasure at hm; omega)
    have h1 : s.outcode1 = 0 := bitCount_eq_zero _ hm1 (by unfold clipMeasure at hm; omega)
    exact ⟨_, clipLoop_accept rect 0 s ((lor_eq_zero_iff _ _).mpr ⟨h0, h1⟩)⟩
  | succ n ih =>
    intro s t0 t1 hI hm
    by_cases ha : s.outcode0 ||| s.outcode1 = 0
    · exact ⟨_, clipLoop_accept rect _ s ha⟩
    · by_cases hr : s.outcode0 &&& s.outcode1 = 0
      · rw [clipLoop_step rect n s ha hr]
        obtain ⟨t0', t1', hI', hd⟩ := clipBranch_spec a b rect hwf s t0 t1 hI ha hr
        rcases hd with hd | hd
        · exact ⟨_, clipLoop_reject rect n _ hd⟩
        · exact ih _ t0' t1' hI' (by omega)
      · exact ⟨_, clipLoop_reject rect _ s hr⟩

theorem clipMeasure_le_four (a b : Point) (rect : Rect) (s : LoopState) (t0 t1 : ℚ)
    (hI : Inv a b rect s t0 t1) : clipMeasure s ≤ 4 := by
  have hm0 : s.outcode0 ∈ outcodeValues := by rw [hI.oc0]; exact ComputeOutCode_mem _ _ _
  have hm1 : s.outcode1 ∈ outcodeValues := by rw [hI.oc1]; exact ComputeOutCode_mem _ _ _
  have := bitCount_le_two _ hm0
  have := bitCount_le_two _ hm1
  unfold clipMeasure
  omega

/-- More fuel does not change a result. -/
theorem clipLoop_mono (rect : Rect) :
    ∀ (fuel : Nat) (s : LoopState) (res : Option ClipResult),
      clipLoop rect fuel s = some res → ∀ fuel', fuel ≤ fuel' →
      clipLoop rect fuel' s = some res := by
  intro fuel
  induction fuel with
  | zero =>
    intro s res h fuel' _
    by_cases ha : s.outcode0 ||| s.outcode1 = 0
    · rw [clipLoop_accept rect _ s ha] at h ⊢; exact h
    · by_cases hr : s.outcode0 &&& s.outcode1 = 0
      · rw [clipLoop_zero rect s ha hr] at h; cases h
      · rw [clipLoop_reject rect _ s hr] at h ⊢; exact h
  | succ n ih =>
    intro s res h fuel' hle
    by_cases ha : s.outcode0 ||| s.outcode1 = 0
    · rw [clipLoop_accept rect _ s ha] at h ⊢; exact h
    · by_cases hr : s.outcode0 &&& s.outcode1 = 0
      · obtain ⟨m, rfl⟩ : ∃ m, fuel' = m + 1 := ⟨fuel' - 1, by omega⟩
        rw [clipLoop_step rect _ s ha hr] at h ⊢
        exact ih _ res h m (by omega)
      · rw [clipLoop_reject rect _ s hr] at h ⊢; exact h

/-- With a well-formed rectangle, four units of fuel are enough for every segment. -/
theorem CohenSutherlandLineClip_returns (a b : Point) (rect : Rect) (hwf : rect.WellFormed)
    (fuel : Nat) (hfuel : 4 ≤ fuel) : ∃ res, CohenSutherlandLineClip fuel a b rect = some res := by
  have hI := Inv_init a b rect
  obtain ⟨res, h⟩ := clipLoop_terminates a b rect hwf 4 _ 0 1 hI
    (clipMeasure_le_four a b rect _ 0 1 hI)
  exact ⟨res, clipLoop_mono rect 4 _ res h fuel hfuel⟩

/-! ## The result of `CohenSutherlandLineClip` -/

/-- The state in which the loop of `CohenSutherlandLineClip` exits satisfies the
invariant, and the result is read off that state. -/
theorem CohenSutherlandLineClip_final (a b : Point) (rect : Rect) (hwf : rect.WellFormed)
    (fuel : Nat) (res : Option ClipResult)
    (h : CohenSutherlandLineClip fuel a b rect = some res) :
    ∃ s t0 t1, Inv a b rect s t0 t1 ∧
      ((s.outcode0 ||| s.outcode1 = 0 ∧ res = some (acceptResult s)) ∨
       (s.outcode0 &&& s.outcode1 ≠ 0 ∧ res = none)) := by
  obtain ⟨s, ⟨t0, t1, hI⟩, hres⟩ :=
    clipLoop_final rect (fun s => ∃ t0 t1, Inv a b rect s t0 t1)
      (fun s ⟨t0, t1, hI⟩ ha hr =>
        let ⟨t0', t1', hI', _⟩ := clipBranch_spec a b rect hwf s t0 t1 hI ha hr
        ⟨t0', t1', hI'⟩)
      fuel (initState a b rect) ⟨0, 1, Inv_init a b rect⟩ res h
  exact ⟨s, t0, t1, hI, hres⟩

theorem pointAt_pointAt (a b : Point) (t0 t1 v : ℚ) :
    pointAt (pointAt a b t0) (pointAt a b t1) v = pointAt a b (t0 + v * (t1 - t0)) := by
  unfold pointAt
  exact Prod.ext (by simp only; ring) (by simp only; ring)

/-- The closed rectangle is convex. -/
theorem inRect_pointAt (rect : Rect) (p q : Point) (hp : inRect rect p) (hq : inRect rect q)
    (v : ℚ) (hv0 : 0 ≤ v) (hv1 : v ≤ 1) : inRect rect (pointAt p q v) := by
  obtain ⟨p1, p2, p3, p4⟩ := hp
  obtain ⟨q1, q2, q3, q4⟩ := hq
  have hw : 0 ≤ 1 - v := by linarith
  unfold inRect pointAt
  refine ⟨?_, ?_, ?_, ?_⟩ <;> simp only <;> nlinarith

/-- In an accepting state both current endpoints are in the rectangle. -/
theorem Inv_accept_inRect (a b : Point) (rect : Rect) (s : LoopState) (t0 t1 : ℚ)
    (hI : Inv a b rect s t0 t1) (ha : s.outcode0 ||| s.outcode1 = 0) :
    inRect rect (pointAt a b t0) ∧ inRect rect (pointAt a b t1) := by
  obtain ⟨h0, h1⟩ := (lor_eq_zero_iff _ _).mp ha
  rw [hI.oc0, ComputeOutCode_eq_zero, hI.x0, hI.y0] at h0
  rw [hI.oc1, ComputeOutCode_eq_zero, hI.x1, hI.y1] at h1
  exact ⟨h0, h1⟩

/-- In a rejecting state no point of the segment `a b` is in the rectangle. -/
theorem Inv_reject_no_visible (a b : Point) (rect : Rect) (hwf : rect.WellFormed)
    (s : LoopState) (t0 t1 : ℚ) (hI : Inv a b rect s t0 t1)
    (hr : s.outcode0 &&& s.outcode1 ≠ 0) (u : ℚ) (hu0 : 0 ≤ u) (hu1 : u ≤ 1) :
    ¬ inRect rect (pointAt a b u) := by
  intro hin
  obtain ⟨h0, h1⟩ := hI.vis u hu0 hu1 hin
  have hm0 : s.outcode0 ∈ outcodeValues := by rw [hI.oc0]; exact ComputeOutCode_mem _ _ _
  have hm1 : s.outcode1 ∈ outcodeValues := by rw [hI.oc1]; exact ComputeOutCode_mem _ _ _
  have hx := lin_between a.1 (b.1 - a.1) t0 t1 u h0 h1
  have hy := lin_between a.2 (b.2 - a.2) t0 t1 u h0 h1
  obtain ⟨i1, i2, i3, i4⟩ := hin
  simp only [pointAt] at i1 i2 i3 i4
  rcases (land_ne_zero_iff_shared _ hm0 _ hm1).mp hr with ⟨k0, k1⟩ | ⟨k0, k1⟩ | ⟨k0, k1⟩ | ⟨k0, k1⟩
  · rw [hI.oc0, ComputeOutCode_left, hI.x0] at k0
    rw [hI.oc1, ComputeOutCode_left, hI.x1] at k1
    rcases hx.1 with h | h <;> linarith
  · rw [hI.oc0, ComputeOutCode_right_wf _ _ _ hwf, hI.x0] at k0
    rw [hI.oc1, ComputeOutCode_right_wf _ _ _ hwf, hI.x1] at k1
    rcases hx.2 with h | h <;> linarith
  · rw [hI.oc0, ComputeOutCode_bottom, hI.y0] at k0
    rw [hI.oc1, ComputeOutCode_bottom, hI.y1] at k1
    rcases hy.1 with h | h <;> linarith
  · rw [hI.oc0, ComputeOutCode_top_wf _ _ _ hwf, hI.y0] at k0
    rw [hI.oc1, ComputeOutCode_top_wf _ _ _ hwf, hI.y1] at k1
    rcases hy.2 with h | h <;> linarith

/-- Rejection means that the segment has no point in the rectangle. -/
theorem reject_no_visible (a b : Point) (rect : Rect) (hwf : rect.WellFormed) (fuel : Nat)
    (h : CohenSutherlandLineClip fuel a b rect = some none) (p : Point)
    (hp : onSegment a b p) : ¬ inRect rect p := by
  obtain ⟨s, t0, t1, hI, hres⟩ := CohenSutherlandLineClip_final a b rect hwf fuel none h
  rcases hres with ⟨_, hres⟩ | ⟨hr, _⟩
  · cases hres
  · obtain ⟨u, hu0, hu1, rfl⟩ := hp
    exact Inv_reject_no_visible a b rect hwf s t0 t1 hI hr u hu0 hu1

/-- An accepted result is the visible part of the segment, with its orientation. -/
theorem accept_visible (a b : Point) (rect : Rect) (hwf : rect.WellFormed) (fuel : Nat)
    (r : ClipResult) (h : CohenSutherlandLineClip fuel a b rect = some (some r)) :
    ∃ t0 t1, 0 ≤ t0 ∧ t0 ≤ t1 ∧ t1 ≤ 1 ∧ r.start = pointAt a b t0 ∧ r.«end» = pointAt a b t1 ∧
      inRect rect r.start ∧ inRect rect r.«end» ∧
      ∀ p, onSegment r.start r.«end» p ↔ onSegment a b p ∧ inRect rect p := by
  obtain ⟨s, t0, t1, hI, hres⟩ := CohenSutherlandLineClip_final a b rect hwf fuel _ h
  rcases hres with ⟨ha, hres⟩ | ⟨_, hres⟩
  swap
  · cases hres
  obtain ⟨hin0, hin1⟩ := Inv_accept_inRect a b rect s t0 t1 hI ha
  have hs : r.start = pointAt a b t0 := by
    rw [Option.some.inj hres]
    exact Prod.ext hI.x0 hI.y0
  have he : r.«end» = pointAt a b t1 := by
    rw [Option.some.inj hres]
    exact Prod.ext hI.x1 hI.y1
  refine ⟨t0, t1, hI.h0, hI.h01, hI.h1, hs, he, hs ▸ hin0, he ▸ hin1, ?_⟩
  intro p
  rw [hs, he]
  constructor
  · rintro ⟨v, hv0, hv1, rfl⟩
    rw [pointAt_pointAt]
    have hd : 0 ≤ t1 - t0 := sub_nonneg.mpr hI.h01
    have h1 : 0 ≤ v * (t1 - t0) := mul_nonneg hv0 hd
    have h2 : v * (t1 - t0) ≤ 1 * (t1 - t0) := mul_le_mul_of_nonneg_right hv1 hd
    refine ⟨⟨t0 + v * (t1 - t0), by linarith [hI.h0], by linarith [hI.h1], rfl⟩, ?_⟩
    rw [← pointAt_pointAt]
    exact inRect_pointAt rect _ _ hin0 hin1 v hv0 hv1
  · rintro ⟨⟨u, hu0, hu1, rfl⟩, hin⟩
    obtain ⟨h0, h1⟩ := hI.vis u hu0 hu1 hin
    rcases eq_or_lt_of_le hI.h01 with heq | hlt
    · refine ⟨0, le_refl _, zero_le_one, ?_⟩
      rw [pointAt_pointAt]
      have : u = t0 := le_antisymm (heq ▸ h1) h0
      rw [this]
      simp
    · have hd : 0 < t1 - t0 := sub_pos.mpr hlt
      refine ⟨(u - t0) / (t1 - t0), div_nonneg (by linarith) hd.le,
        (div_le_one hd).mpr (by linarith), ?_⟩
      rw [pointAt_pointAt]
      congr 1
      field_simp

/-- The segment clipper rejects exactly the segments without a point in the rectangle. -/
theorem reject_iff (a b : Point) (rect : Rect) (hwf : rect.WellFormed) (fuel : Nat)
    (hfuel : 4 ≤ fuel) :
    CohenSutherlandLineClip fuel a b rect = some none ↔
      ¬ ∃ p, onSegment a b p ∧ inRect rect p := by
  constructor
  · rintro h ⟨p, hp, hin⟩
    exact reject_no_visible a b rect hwf fuel h p hp hin
  · intro hno
    obtain ⟨res, hres⟩ := CohenSutherlandLineClip_returns a b rect hwf fuel hfuel
    cases res with
    | none => exact hres
    | some r =>
      exfalso
      obtain ⟨t0, t1, h0, h01, h1, hs, _, hin, _, _⟩ := accept_visible a b rect hwf fuel r hres
      exact hno ⟨r.start, ⟨t0, h0, le_trans h01 h1, hs⟩, hin⟩

theorem toEdge_zero : toEdge 0 = Edge.NoEdge := by
  decide

/-- Both endpoints in the rectangle: the loop exits at once with the endpoints unchanged. -/
theorem CohenSutherlandLineClip_inside (fuel : Nat) (a b : Point) (rect : Rect)
    (ha : inRect rect a) (hb : inRect rect b) :
    CohenSutherlandLineClip fuel a b rect =
      some (some { startClipEdge := Edge.NoEdge, endClipEdge := Edge.NoEdge,
                   start := a, «end» := b }) := by
  have h0 : ComputeOutCode a.1 a.2 rect = 0 := (ComputeOutCode_eq_zero _ _ _).mpr ha
  have h1 : ComputeOutCode b.1 b.2 rect = 0 := (ComputeOutCode_eq_zero _ _ _).mpr hb
  unfold CohenSutherlandLineClip
  rw [clipLoop_accept rect fuel _ (by simp [initState, h0, h1])]
  simp [acceptResult, initState, h0, h1, toEdge_zero]

/-- Both endpoints strictly outside on the same side: the loop exits at once by `break`. -/
theorem CohenSutherlandLineClip_same_side (fuel : Nat) (a b : Point) (rect : Rect)
    (hwf : rect.WellFormed)
    (h : (a.1 < rect.xMin ∧ b.1 < rect.xMin) ∨ (a.1 > rect.xMax ∧ b.1 > rect.xMax) ∨
         (a.2 < rect.yMin ∧ b.2 < rect.yMin) ∨ (a.2 > rect.yMax ∧ b.2 > rect.yMax)) :
    CohenSutherlandLineClip fuel a b rect = some none := by
  unfold CohenSutherlandLineClip
  apply clipLoop_reject
  show ComputeOutCode a.1 a.2 rect &&& ComputeOutCode b.1 b.2 rect ≠ 0
  rw [land_ne_zero_iff_shared _ (ComputeOutCode_mem _ _ _) _ (ComputeOutCode_mem _ _ _)]
  rcases h with ⟨h0, h1⟩ | ⟨h0, h1⟩ | ⟨h0, h1⟩ | ⟨h0, h1⟩
  · exact Or.inl ⟨(ComputeOutCode_left _ _ _).mpr h0, (ComputeOutCode_left _ _ _).mpr h1⟩
  · exact Or.inr (Or.inl ⟨(ComputeOutCode_right_wf _ _ _ hwf).mpr h0,
      (ComputeOutCode_right_wf _ _ _ hwf).mpr h1⟩)
  · exact Or.inr (Or.inr (Or.inl ⟨(ComputeOutCode_bottom _ _ _).mpr h0,
      (ComputeOutCode_bottom _ _ _).mpr h1⟩))
  · exact Or.inr (Or.inr (Or.inr ⟨(ComputeOutCode_top_wf _ _ _ hwf).mpr h0,
      (ComputeOutCode_top_wf _ _ _ hwf).mpr h1⟩))

/-! ## The polyline assembler `clip` -/

theorem segments_cons_cons (p q : Point) (rest : List Point) :
    segments (p :: q :: rest) = (p, q) :: segments (q :: rest) := by
  simp [segments]

/-- While the accumulator is non-empty and every remaining point is in the rectangle,
the loop of `clip` appends the remaining points to the accumulator. -/
theorem clipFor_inside_append (fuel : Nat) (rect : Rect) :
    ∀ (pts : List Point) (prev : Point) (clippedLines : List Line) (subLine : Line),
      inRect rect prev → (∀ p ∈ pts, inRect rect p) → subLine ≠ [] →
      clipFor fuel rect prev pts clippedLines subLine = some (clippedLines, subLine ++ pts) := by
  intro pts
  induction pts with
  | nil => intro prev cl sub _ _ _; simp [clipFor]
  | cons p rest ih =>
    intro prev cl sub hprev hall hne
    have hp : inRect rect p := hall p (List.mem_cons_self _ _)
    have hrest : ∀ q ∈ rest, inRect rect q := fun q hq => hall q (List.mem_cons_of_mem _ hq)
    rw [clipFor, CohenSutherlandLineClip_inside fuel prev p rect hprev hp]
    have hemp : sub.isEmpty = false := by
      cases sub with
      | nil => exact absurd rfl hne
      | cons _ _ => rfl
    simp only [hemp]
    rw [ih p cl (sub ++ [p]) hp hrest (by simp)]
    simp

/-- Clipping a polyline of at least two points, all in the rectangle, returns it
unchanged as the only output polyline. -/
theorem clip_inside (fuel : Nat) (rect : Rect) (line : Line) (hlen : 2 ≤ line.length)
    (hall : ∀ p ∈ line, inRect rect p) : clip fuel line rect = some [line] := by
  match line, hlen, hall with
  | p0 :: p1 :: rest, _, hall =>
    have h0 : inRect rect p0 := hall p0 (by simp)
    have h1 : inRect rect p1 := hall p1 (by simp)
    have hrest : ∀ q ∈ rest, inRect rect q := fun q hq => hall q (by simp [hq])
    simp only [clip]
    rw [clipFor, CohenSutherlandLineClip_inside fuel p0 p1 rect h0 h1]
    simp only [List.isEmpty_nil, if_true, ne_eq, not_true_eq_false, if_false]
    rw [clipFor_inside_append fuel rect rest p1 [] [p0, p1] h1 hrest (by simp)]
    simp

/-- While the accumulator is empty and every remaining segment is rejected, the loop of
`clip` leaves its state unchanged. -/
theorem clipFor_all_rejected (fuel : Nat) (rect : Rect) :
    ∀ (pts : List Point) (prev : Point) (clippedLines : List Line),
      (∀ seg ∈ segments (prev :: pts), CohenSutherlandLineClip fuel seg.1 seg.2 rect = some none) →
      clipFor fuel rect prev pts clippedLines [] = some (clippedLines, []) := by
  intro pts
  induction pts with
  | nil => intro prev cl _; simp [clipFor]
  | cons p rest ih =>
    intro prev cl h
    rw [segments_cons_cons] at h
    rw [clipFor, h (prev, p) (List.mem_cons_self _ _)]
    simp only [List.isEmpty_nil, Bool.not_true, Bool.false_eq_true, if_false]
    exact ih p cl (fun seg hseg => h seg (List.mem_cons_of_mem _ hseg))

/-- A polyline without a point in the rectangle clips to the empty sequence. -/
theorem clip_outside (fuel : Nat) (hfuel : 4 ≤ fuel) (rect : Rect) (hwf : rect.WellFormed)
    (line : Line) (hout : ∀ p, onPolyline line p → ¬ inRect rect p) :
    clip fuel line rect = some [] := by
  match line, hout with
  | [], _ => rfl
  | [_], _ => rfl
  | p0 :: p1 :: rest, hout =>
    simp only [clip]
    rw [clipFor_all_rejected fuel rect (p1 :: rest) p0 []]
    · simp
    · intro seg hseg
      rw [reject_iff seg.1 seg.2 rect hwf fuel hfuel]
      rintro ⟨p, hp, hin⟩
      exact hout p ⟨seg, hseg, hp⟩ hin

/-! ## The edge annotations -/

theorem bitCount_one_or_two : ∀ o ∈ outcodeValues, o ≠ 0 → bitCount o = 1 ∨ bitCount o = 2 := by
  decide

theorem bitCount_two_vertical :
    ∀ o ∈ outcodeValues, bitCount o = 2 → o &&& TOP ≠ 0 ∨ o &&& BOTTOM ≠ 0 := by
  decide

theorem bitCount_two_horizontal :
    ∀ o ∈ outcodeValues, bitCount o = 2 → o &&& LEFT ≠ 0 ∨ o &&& RIGHT ≠ 0 := by
  decide

theorem bitCount_vertical_horizontal :
    ∀ o ∈ outcodeValues, (o &&& TOP ≠ 0 ∨ o &&& BOTTOM ≠ 0) →
      (o &&& LEFT ≠ 0 ∨ o &&& RIGHT ≠ 0) → bitCount o = 2 := by
  decide

/-- Only the value 0 and the two-bit values are mapped to `NoEdge`. -/
theorem toEdge_eq_NoEdge_iff :
    ∀ o ∈ outcodeValues, (toEdge o = Edge.NoEdge ↔ o = 0 ∨ bitCount o = 2) := by
  decide

/-- The branch of source lines 111-123 that is taken, with the coordinate it sets. -/
theorem intersection_cases (rect : Rect) (s : LoopState) :
    (outcodeOut s &&& TOP ≠ 0 ∧ (intersection rect s).2 = rect.yMax) ∨
    (outcodeOut s &&& TOP = 0 ∧ outcodeOut s &&& BOTTOM ≠ 0 ∧
      (intersection rect s).2 = rect.yMin) ∨
    (outcodeOut s &&& TOP = 0 ∧ outcodeOut s &&& BOTTOM = 0 ∧ outcodeOut s &&& RIGHT ≠ 0 ∧
      (intersection rect s).1 = rect.xMax) ∨
    (outcodeOut s &&& TOP = 0 ∧ outcodeOut s &&& BOTTOM = 0 ∧ outcodeOut s &&& RIGHT = 0 ∧
      outcodeOut s &&& LEFT ≠ 0 ∧ (intersection rect s).1 = rect.xMin) ∨
    (outcodeOut s &&& TOP = 0 ∧ outcodeOut s &&& BOTTOM = 0 ∧ outcodeOut s &&& RIGHT = 0 ∧
      outcodeOut s &&& LEFT = 0) := by
  by_cases hT : outcodeOut s &&& TOP = 0
  · by_cases hB : outcodeOut s &&& BOTTOM = 0
    · by_cases hR : outcodeOut s &&& RIGHT = 0
      · by_cases hL : outcodeOut s &&& LEFT = 0
        · exact Or.inr (Or.inr (Or.inr (Or.inr ⟨hT, hB, hR, hL⟩)))
        · exact Or.inr (Or.inr (Or.inr (Or.inl ⟨hT, hB, hR, hL, by
            simp [intersection, hT, hB, hR, hL]⟩)))
      · exact Or.inr (Or.inr (Or.inl ⟨hT, hB, hR, by simp [intersection, hT, hB, hR]⟩))
    · exact Or.inr (Or.inl ⟨hT, hB, by simp [intersection, hT, hB]⟩)
  · exact Or.inl ⟨hT, by simp [intersection, hT]⟩

/-- One move of an endpoint keeps its history well-formed, provided the move gains no
outcode bit. -/
theorem Traj_step (rect : Rect) (hwf : rect.WellFormed) (A o o' l : Nat)
    (ax ay x y x' y' : ℚ)
    (hA : A = ComputeOutCode ax ay rect) (ho : o = ComputeOutCode x y rect)
    (ho' : o' = ComputeOutCode x' y' rect)
    (hT : Traj rect A ay o l y) (hne : o ≠ 0)
    (hcase : (o &&& TOP ≠ 0 ∧ y' = rect.yMax) ∨
      (o &&& TOP = 0 ∧ o &&& BOTTOM ≠ 0 ∧ y' = rect.yMin) ∨
      (o &&& TOP = 0 ∧ o &&& BOTTOM = 0 ∧ o &&& RIGHT ≠ 0 ∧ x' = rect.xMax) ∨
      (o &&& TOP = 0 ∧ o &&& BOTTOM = 0 ∧ o &&& RIGHT = 0 ∧ o &&& LEFT ≠ 0 ∧
        x' = rect.xMin))
    (hsub : ∀ K', K' = LEFT ∨ K' = RIGHT ∨ K' = BOTTOM ∨ K' = TOP →
      o' &&& K' ≠ 0 → o &&& K' ≠ 0)
    (hgeo : y ≠ ay → y' ≠ y) :
    Traj rect A ay o' (if o' ≠ 0 then o' else l) y' := by
  have hmA : A ∈ outcodeValues := hA ▸ ComputeOutCode_mem _ _ _
  have hmo : o ∈ outcodeValues := ho ▸ ComputeOutCode_mem _ _ _
  have hmo' : o' ∈ outcodeValues := ho' ▸ ComputeOutCode_mem _ _ _
  have kT : TOP = LEFT ∨ TOP = RIGHT ∨ TOP = BOTTOM ∨ TOP = TOP := Or.inr (Or.inr (Or.inr rfl))
  have kB : BOTTOM = LEFT ∨ BOTTOM = RIGHT ∨ BOTTOM = BOTTOM ∨ BOTTOM = TOP :=
    Or.inr (Or.inr (Or.inl rfl))
  have kR : RIGHT = LEFT ∨ RIGHT = RIGHT ∨ RIGHT = BOTTOM ∨ RIGHT = TOP := Or.inr (Or.inl rfl)
  have kL : LEFT = LEFT ∨ LEFT = RIGHT ∨ LEFT = BOTTOM ∨ LEFT = TOP := Or.inl rfl
  have oT : o &&& TOP ≠ 0 ↔ y > rect.yMax := by rw [ho]; exact ComputeOutCode_top_wf _ _ _ hwf
  have oB : o &&& BOTTOM ≠ 0 ↔ y < rect.yMin := by rw [ho]; exact ComputeOutCode_bottom _ _ _
  have o'T : o' &&& TOP ≠ 0 ↔ y' > rect.yMax := by
    rw [ho']; exact ComputeOutCode_top_wf _ _ _ hwf
  have o'B : o' &&& BOTTOM ≠ 0 ↔ y' < rect.yMin := by
    rw [ho']; exact ComputeOutCode_bottom _ _ _
  have o'R : o' &&& RIGHT ≠ 0 ↔ x' > rect.xMax := by
    rw [ho']; exact ComputeOutCode_right_wf _ _ _ hwf
  have o'L : o' &&& LEFT ≠ 0 ↔ x' < rect.xMin := by
    rw [ho']; exact ComputeOutCode_left _ _ _
  -- the move clears a bit
  have hlt : bitCount o' < bitCount o := by
    rcases hcase with ⟨h, hy⟩ | ⟨_, h, hy⟩ | ⟨_, _, h, hx⟩ | ⟨_, _, _, h, hx⟩
    · exact bitCount_lt_of_subset o o' TOP kT hsub
        (not_not.mp (fun hc => absurd (o'T.mp hc) (by rw [hy]; exact lt_irrefl _))) h
    · exact bitCount_lt_of_subset o o' BOTTOM kB hsub
        (not_not.mp (fun hc => absurd (o'B.mp hc) (by rw [hy]; exact lt_irrefl _))) h
    · exact bitCount_lt_of_subset o o' RIGHT kR hsub
        (not_not.mp (fun hc => absurd (o'R.mp hc) (by rw [hx]; exact lt_irrefl _))) h
    · exact bitCount_lt_of_subset o o' LEFT kL hsub
        (not_not.mp (fun hc => absurd (o'L.mp hc) (by rw [hx]; exact lt_irrefl _))) h
  have hzero : bitCount o = 1 → o' = 0 := fun h1 =>
    bitCount_eq_zero o' hmo' (by omega)
  rcases hT with ⟨hoA, hl, hy⟩ | ⟨_, h0, _⟩ | ⟨_, h0, _⟩ | ⟨hA2, ho1, hl, hon⟩ | ⟨_, h0, _⟩
  · -- not moved before
    rcases bitCount_one_or_two o hmo hne with h1 | h2
    · have hz := hzero h1
      right; left
      rw [hz]
      exact ⟨hoA ▸ h1, rfl, by simpa using hl⟩
    · have hon : yOn rect ay y' := by
        rcases hcase with ⟨h, hy'⟩ | ⟨_, h, hy'⟩ | ⟨hT0, hB0, _⟩ | ⟨hT0, hB0, _⟩
        · exact Or.inl ⟨hy ▸ oT.mp h, hy'⟩
        · exact Or.inr ⟨hy ▸ oB.mp h, hy'⟩
        · rcases bitCount_two_vertical o hmo h2 with h | h
          · exact absurd hT0 h
          · exact absurd hB0 h
        · rcases bitCount_two_vertical o hmo h2 with h | h
          · exact absurd hT0 h
          · exact absurd hB0 h
      by_cases hz : o' = 0
      · right; right; left
        rw [hz]
        exact ⟨hoA ▸ h2, rfl, by simpa using hl, hon⟩
      · right; right; right; left
        refine ⟨hoA ▸ h2, ?_, by simp [hz], hon⟩
        rcases bitCount_one_or_two o' hmo' hz with h | h
        · exact h
        · omega
  · exact absurd h0 hne
  · exact absurd h0 hne
  · -- second move of a corner point
    have hz := hzero ho1
    have hyne : y ≠ ay := by
      rcases hon with ⟨h1, h2⟩ | ⟨h1, h2⟩
      · rw [h2]; exact ne_of_lt h1
      · rw [h2]; exact ne_of_gt h1
    have hy' := hgeo hyne
    right; right; right; right
    rw [hz]
    refine ⟨hA2, rfl, by simpa using hl ▸ ho1, by simpa using hl ▸ hmo, ?_⟩
    intro hon'
    have hw := hwf.2
    rcases hon with ⟨h1, h2⟩ | ⟨h1, h2⟩ <;> rcases hon' with ⟨h3, h4⟩ | ⟨h3, h4⟩
    · exact hy' (h4.trans h2.symm)
    · linarith
    · linarith
    · exact hy' (h4.trans h2.symm)
  · exact absurd h0 hne

theorem bitCount_zero : bitCount 0 = 0 := by
  decide

/-- In an accepting state the edge reported for an endpoint is `NoEdge` exactly when the
input point is in the rectangle, or is a corner point whose first move landed in the
rectangle. -/
theorem Traj_final (rect : Rect) (hwf : rect.WellFormed) (A l : Nat) (ax ay y : ℚ)
    (hA : A = ComputeOutCode ax ay rect) (hT : Traj rect A ay 0 l y) :
    toEdge l = Edge.NoEdge ↔
      inRect rect (ax, ay) ∨ ((ax < rect.xMin ∨ ax > rect.xMax) ∧ yOn rect ay y) := by
  have hmA : A ∈ outcodeValues := hA ▸ ComputeOutCode_mem _ _ _
  have hin : inRect rect (ax, ay) ↔ A = 0 := by rw [hA, ComputeOutCode_eq_zero]
  have aT : A &&& TOP ≠ 0 ↔ ay > rect.yMax := by rw [hA]; exact ComputeOutCode_top_wf _ _ _ hwf
  have aB : A &&& BOTTOM ≠ 0 ↔ ay < rect.yMin := by rw [hA]; exact ComputeOutCode_bottom _ _ _
  have aR : A &&& RIGHT ≠ 0 ↔ ax > rect.xMax := by
    rw [hA]; exact ComputeOutCode_right_wf _ _ _ hwf
  have aL : A &&& LEFT ≠ 0 ↔ ax < rect.xMin := by rw [hA]; exact ComputeOutCode_left _ _ _
  have hcorner : (ax < rect.xMin ∨ ax > rect.xMax) → yOn rect ay y → bitCount A = 2 := by
    intro hx hy
    apply bitCount_vertical_horizontal A hmA
    · rcases hy with ⟨h, _⟩ | ⟨h, _⟩
      · exact Or.inl (aT.mpr h)
      · exact Or.inr (aB.mpr h)
    · rcases hx with h | h
      · exact Or.inl (aL.mpr h)
      · exact Or.inr (aR.mpr h)
  rcases hT with ⟨hoA, hl, _⟩ | ⟨h1, _, hl⟩ | ⟨h2, _, hl, hon⟩ | ⟨_, h1, _⟩ | ⟨h2, _, hl1, hml, hon⟩
  · rw [hl, ← hoA, hin, ← hoA]
    exact ⟨fun _ => Or.inl rfl, fun _ => toEdge_zero⟩
  · rw [hl, toEdge_eq_NoEdge_iff A hmA, hin]
    constructor
    · rintro (h | h)
      · rw [h, bitCount_zero] at h1; cases h1
      · omega
    · rintro (h | ⟨hx, hy⟩)
      · rw [h, bitCount_zero] at h1; cases h1
      · have := hcorner hx hy; omega
  · rw [hl, toEdge_eq_NoEdge_iff A hmA]
    refine ⟨fun _ => Or.inr ⟨?_, hon⟩, fun _ => Or.inr h2⟩
    rcases bitCount_two_horizontal A hmA h2 with h | h
    · exact Or.inl (aL.mp h)
    · exact Or.inr (aR.mp h)
  · rw [bitCount_zero] at h1; cases h1
  · rw [toEdge_eq_NoEdge_iff l hml, hin]
    constructor
    · rintro (h | h)
      · rw [h, bitCount_zero] at hl1; cases hl1
      · omega
    · rintro (h | ⟨_, hy⟩)
      · rw [h, bitCount_zero] at h2; cases h2
      · exact absurd hy hon

/-- The state in which the loop exits satisfies the invariant and, unless it is a
rejecting state, carries the histories of both endpoints. -/
theorem CohenSutherlandLineClip_final_traj (a b : Point) (rect : Rect)
    (hwf : rect.WellFormed) (fuel : Nat) (res : Option ClipResult)
    (h : CohenSutherlandLineClip fuel a b rect = some res) :
    ∃ s t0 t1, Inv a b rect s t0 t1 ∧
      (s.outcode0 &&& s.outcode1 = 0 →
        Traj rect (ComputeOutCode a.1 a.2 rect) a.2 s.outcode0 s.lastEdge0 s.y0 ∧
        Traj rect (ComputeOutCode b.1 b.2 rect) b.2 s.outcode1 s.lastEdge1 s.y1) ∧
      ((s.outcode0 ||| s.outcode1 = 0 ∧ res = some (acceptResult s)) ∨
       (s.outcode0 &&& s.outcode1 ≠ 0 ∧ res = none)) := by
  have key := clipLoop_final rect
    (fun s => ∃ t0 t1, Inv a b rect s t0 t1 ∧
      (s.outcode0 &&& s.outcode1 = 0 →
        Traj rect (ComputeOutCode a.1 a.2 rect) a.2 s.outcode0 s.lastEdge0 s.y0 ∧
        Traj rect (ComputeOutCode b.1 b.2 rect) b.2 s.outcode1 s.lastEdge1 s.y1))
    (by
      rintro s ⟨t0, t1, hI, hTr⟩ ha hr
      obtain ⟨hTr0, hTr1⟩ := hTr hr
      have hmoo : outcodeOut s ∈ outcodeValues := by
        rcases outcodeOut_cases s with h | ⟨h, _⟩ <;> rw [h]
        · rw [hI.oc0]; exact ComputeOutCode_mem _ _ _
        · rw [hI.oc1]; exact ComputeOutCode_mem _ _ _
      have hbits := outcode_bits_of_ne_zero _ hmoo (outcodeOut_ne_zero s ha)
      have hcases := intersection_cases rect s
      by_cases hsel : outcodeOut s = s.outcode0
      · obtain ⟨τ, hlt, hle, hI', ho1, hl1, _, hy1, hl0, hq, _, hsub⟩ :=
          clipBranch_move0 a b rect hwf s t0 t1 hI ha hr hsel
        have hqx : (intersection rect s).1 = (clipBranch rect s).x0 := by rw [← hq]
        have hqy : (intersection rect s).2 = (clipBranch rect s).y0 := by rw [← hq]
        rw [hsel, hqx, hqy] at hcases
        rw [hsel] at hbits
        refine ⟨τ, t1, hI', fun hand => ⟨?_, ?_⟩⟩
        · rw [ho1] at hand
          rw [hl0]
          refine Traj_step rect hwf _ s.outcode0 _ s.lastEdge0 a.1 a.2 s.x0 s.y0
            (clipBranch rect s).x0 (clipBranch rect s).y0 rfl hI.oc0 hI'.oc0 hTr0
            (hsel ▸ outcodeOut_ne_zero s ha) ?_ (hsub hand) ?_
          · rcases hcases with h | h | h | h | ⟨h1, h2, h3, h4⟩
            · exact Or.inl h
            · exact Or.inr (Or.inl h)
            · exact Or.inr (Or.inr (Or.inl h))
            · exact Or.inr (Or.inr (Or.inr h))
            · rcases hbits with h | h | h | h
              · exact absurd h1 h
              · exact absurd h2 h
              · exact absurd h3 h
              · exact absurd h4 h
          · intro hne heq
            rw [hI'.y0, hI.y0] at heq
            have hd : (τ - t0) * (b.2 - a.2) = 0 := by linarith
            rcases mul_eq_zero.mp hd with h | h
            · linarith
            · apply hne
              rw [hI.y0, h]
              ring
        · rw [ho1, hl1, hy1]
          exact hTr1
      · obtain ⟨τ, hle, hlt, hI', ho0, hl0, _, hy0, hl1, hq, _, hsub⟩ :=
          clipBranch_move1 a b rect hwf s t0 t1 hI ha hr hsel
        have hsel1 : outcodeOut s = s.outcode1 := by
          rcases outcodeOut_cases s with h | h
          · exact absurd h hsel
          · exact h.1
        have hqx : (intersection rect s).1 = (clipBranch rect s).x1 := by rw [← hq]
        have hqy : (intersection rect s).2 = (clipBranch rect s).y1 := by rw [← hq]
        rw [hsel1, hqx, hqy] at hcases
        rw [hsel1] at hbits
        refine ⟨t0, τ, hI', fun hand => ⟨?_, ?_⟩⟩
        · rw [ho0, hl0, hy0]
          exact hTr0
        · rw [ho0] at hand
          rw [hl1]
          refine Traj_step rect hwf _ s.outcode1 _ s.lastEdge1 b.1 b.2 s.x1 s.y1
            (clipBranch rect s).x1 (clipBranch rect s).y1 rfl hI.oc1 hI'.oc1 hTr1
            (hsel1 ▸ outcodeOut_ne_zero s ha) ?_ (hsub hand) ?_
          · rcases hcases with h | h | h | h | ⟨h1, h2, h3, h4⟩
            · exact Or.inl h
            · exact Or.inr (Or.inl h)
            · exact Or.inr (Or.inr (Or.inl h))
            · exact Or.inr (Or.inr (Or.inr h))
            · rcases hbits with h | h | h | h
              · exact absurd h1 h
              · exact absurd h2 h
              · exact absurd h3 h
              · exact absurd h4 h
          · intro hne heq
            rw [hI'.y1, hI.y1] at heq
            have hd : (t1 - τ) * (b.2 - a.2) = 0 := by linarith
            rcases mul_eq_zero.mp hd with h | h
            · linarith
            · apply hne
              rw [hI.y1, h]
              linarith)
    fuel (initState a b rect)
    ⟨0, 1, Inv_init a b rect, fun _ => ⟨Or.inl ⟨rfl, rfl, rfl⟩, Or.inl ⟨rfl, rfl, rfl⟩⟩⟩ res h
  obtain ⟨s, ⟨t0, t1, hI, hTr⟩, hres⟩ := key
  exact ⟨s, t0, t1, hI, hTr, hres⟩

/-- The edge annotations of an accepted result. -/
theorem accept_edges (a b : Point) (rect : Rect) (hwf : rect.WellFormed) (fuel : Nat)
    (r : ClipResult) (h : CohenSutherlandLineClip fuel a b rect = some (some r)) :
    (r.startClipEdge = Edge.NoEdge ↔
      inRect rect a ∨ ((a.1 < rect.xMin ∨ a.1 > rect.xMax) ∧ yOn rect a.2 r.start.2)) ∧
    (r.endClipEdge = Edge.NoEdge ↔
      inRect rect b ∨ ((b.1 < rect.xMin ∨ b.1 > rect.xMax) ∧ yOn rect b.2 r.«end».2)) := by
  obtain ⟨s, t0, t1, hI, hTr, hres⟩ := CohenSutherlandLineClip_final_traj a b rect hwf fuel _ h
  rcases hres with ⟨ha, hres⟩ | ⟨_, hres⟩
  swap
  · cases hres
  obtain ⟨h0, h1⟩ := (lor_eq_zero_iff _ _).mp ha
  obtain ⟨hT0, hT1⟩ := hTr (by rw [h0, h1]; rfl)
  rw [h0] at hT0
  rw [h1] at hT1
  rw [Option.some.inj hres]
  exact ⟨Traj_final rect hwf _ _ a.1 a.2 s.y0 rfl hT0,
    Traj_final rect hwf _ _ b.1 b.2 s.y1 rfl hT1⟩

/-! ## Facts that hold for every rectangle -/

theorem OutcodesCurrent_init (a b : Point) (rect : Rect) :
    OutcodesCurrent rect (initState a b rect) :=
  ⟨rfl, rfl⟩

theorem OutcodesCurrent_clipBranch (rect : Rect) (s : LoopState)
    (h : OutcodesCurrent rect s) : OutcodesCurrent rect (clipBranch rect s) := by
  by_cases hsel : outcodeOut s = s.outcode0
  · rw [clipBranch_of_sel rect s hsel]
    exact ⟨rfl, h.2⟩
  · rw [clipBranch_of_not_sel rect s hsel]
    exact ⟨h.1, rfl⟩

theorem Reachable_OutcodesCurrent (rect : Rect) (a b : Point) (s : LoopState)
    (h : Reachable rect a b s) : OutcodesCurrent rect s := by
  induction h with
  | init => exact OutcodesCurrent_init a b rect
  | step s _ _ _ ih => exact OutcodesCurrent_clipBranch rect s ih

/-- For every rectangle, both endpoints of an accepted result are in the rectangle. -/
theorem accept_inRect (fuel : Nat) (a b : Point) (rect : Rect) (r : ClipResult)
    (h : CohenSutherlandLineClip fuel a b rect = some (some r)) :
    inRect rect r.start ∧ inRect rect r.«end» := by
  obtain ⟨s, hs, hres⟩ := clipLoop_final rect (OutcodesCurrent rect)
    (fun s hs _ _ => OutcodesCurrent_clipBranch rect s hs) fuel _
    (OutcodesCurrent_init a b rect) _ h
  rcases hres with ⟨ha, hres⟩ | ⟨_, hres⟩
  swap
  · cases hres
  obtain ⟨h0, h1⟩ := (lor_eq_zero_iff _ _).mp ha
  rw [hs.1, ComputeOutCode_eq_zero] at h0
  rw [hs.2, ComputeOutCode_eq_zero] at h1
  rw [Option.some.inj hres]
  exact ⟨h0, h1⟩

/-- The loop of `clip` keeps: every flushed polyline has at least two points, all in
the rectangle, and the accumulator is empty or has at least two points, all in the
rectangle. -/
theorem clipFor_good (fuel : Nat) (rect : Rect) :
    ∀ (pts : List Point) (prev : Point) (clippedLines : List Line) (subLine : Line),
      (∀ l ∈ clippedLines, GoodLine rect l) → (subLine = [] ∨ GoodLine rect subLine) →
      ∀ out sub, clipFor fuel rect prev pts clippedLines subLine = some (out, sub) →
        (∀ l ∈ out, GoodLine rect l) ∧ (sub = [] ∨ GoodLine rect sub) := by
  intro pts
  induction pts with
  | nil =>
    intro prev cl sl hcl hsl out sub h
    simp only [clipFor, Option.some.injEq, Prod.mk.injEq] at h
    rw [← h.1, ← h.2]
    exact ⟨hcl, hsl⟩
  | cons p rest ih =>
    intro prev cl sl hcl hsl out sub h
    rw [clipFor] at h
    cases hc : CohenSutherlandLineClip fuel prev p rect with
    | none => rw [hc] at h; cases h
    | some res =>
      rw [hc] at h
      have hflush : ∀ l ∈ cl ++ [sl], sl ≠ [] → GoodLine rect l := by
        intro l hl hne
        rcases List.mem_append.mp hl with hl | hl
        · exact hcl l hl
        · rw [List.mem_singleton.mp hl]
          rcases hsl with hsl | hsl
          · exact absurd hsl hne
          · exact hsl
      cases res with
      | none =>
        cases sl with
        | nil => exact ih p cl [] hcl (Or.inl rfl) out sub h
        | cons q qs =>
          exact ih p (cl ++ [q :: qs]) [] (fun l hl => hflush l hl (by simp)) (Or.inl rfl)
            out sub h
      | some r =>
        obtain ⟨hs, he⟩ := accept_inRect fuel prev p rect r hc
        have hnew : GoodLine rect [r.start, r.«end»] := by
          refine ⟨by simp, ?_⟩
          intro q hq
          simp only [List.mem_cons, List.mem_singleton, List.not_mem_nil, or_false] at hq
          rcases hq with rfl | rfl
          · exact hs
          · exact he
        cases sl with
        | nil =>
          simp only [List.isEmpty_nil, if_true] at h
          by_cases hedge : r.endClipEdge = Edge.NoEdge
          · simp only [hedge, ne_eq, not_true_eq_false, if_false] at h
            exact ih p cl _ hcl (Or.inr hnew) out sub h
          · simp only [ne_eq, hedge, not_false_eq_true, if_true] at h
            refine ih p _ [] ?_ (Or.inl rfl) out sub h
            intro l hl
            rcases List.mem_append.mp hl with hl | hl
            · exact hcl l hl
            · rw [List.mem_singleton.mp hl]; exact hnew
        | cons q qs =>
          simp only [List.isEmpty_cons, Bool.false_eq_true, if_false] at h
          refine ih p cl _ hcl (Or.inr ?_) out sub h
          rcases hsl with hsl | hsl
          · cases hsl
          · refine ⟨by simp only [List.length_append]; have := hsl.1; omega, ?_⟩
            intro x hx
            rcases List.mem_append.mp hx with hx | hx
            · exact hsl.2 x hx
            · rw [List.mem_singleton.mp hx]; exact he

/-- For every rectangle, every polyline that `clip` returns has at least two points, all
in the rectangle. -/
theorem clip_good (fuel : Nat) (rect : Rect) (line : Line) (out : List Line)
    (h : clip fuel line rect = some out) : ∀ l ∈ out, GoodLine rect l := by
  match line, h with
  | [], h =>
    simp only [clip, Option.some.injEq] at h
    rw [← h]; intro l hl; cases hl
  | [_], h =>
    simp only [clip, Option.some.injEq] at h
    rw [← h]; intro l hl; cases hl
  | p0 :: p1 :: rest, h =>
    simp only [clip] at h
    cases hc : clipFor fuel rect p0 (p1 :: rest) [] [] with
    | none => rw [hc] at h; cases h
    | some res =>
      obtain ⟨cl, sub⟩ := res
      rw [hc] at h
      obtain ⟨hcl, hsub⟩ := clipFor_good fuel rect (p1 :: rest) p0 [] []
        (fun l hl => by cases hl) (Or.inl rfl) cl sub hc
      cases sub with
      | nil =>
        simp only [List.isEmpty_nil, Bool.not_true, Bool.false_eq_true, if_false,
          Option.some.injEq] at h
        rw [← h]; exact hcl
      | cons q qs =>
        simp only [List.isEmpty_cons, Bool.not_false, if_true, Option.some.injEq] at h
        rw [← h]
        intro l hl
        rcases List.mem_append.mp hl with hl | hl
        · exact hcl l hl
        · rw [List.mem_singleton.mp hl]
          rcases hsub with hsub | hsub
          · cases hsub
          · exact hsub

/-- A result of the loop is reached after at most `fuel` executions of the clipping
branch: some iterate of `clipBranch`, of index at most `fuel`, is a state from which the
loop exits, and no earlier iterate is. -/
theorem clipLoop_exits_within (rect : Rect) :
    ∀ (fuel : Nat) (s : LoopState) (res : Option ClipResult),
      clipLoop rect fuel s = some res →
      ∃ n, n ≤ fuel ∧ exits (Nat.iterate (clipBranch rect) n s) ∧
        ∀ m, m < n → ¬ exits (Nat.iterate (clipBranch rect) m s) := by
  intro fuel
  induction fuel with
  | zero =>
    intro s res h
    by_cases ha : s.outcode0 ||| s.outcode1 = 0
    · exact ⟨0, le_refl _, Or.inl ha, fun m hm => absurd hm (Nat.not_lt_zero m)⟩
    · by_cases hr : s.outcode0 &&& s.outcode1 = 0
      · rw [clipLoop_zero rect s ha hr] at h; cases h
      · exact ⟨0, le_refl _, Or.inr hr, fun m hm => absurd hm (Nat.not_lt_zero m)⟩
  | succ k ih =>
    intro s res h
    by_cases ha : s.outcode0 ||| s.outcode1 = 0
    · exact ⟨0, Nat.zero_le _, Or.inl ha, fun m hm => absurd hm (Nat.not_lt_zero m)⟩
    · by_cases hr : s.outcode0 &&& s.outcode1 = 0
      · rw [clipLoop_step rect k s ha hr] at h
        obtain ⟨n, hn, hex, hmin⟩ := ih (clipBranch rect s) res h
        refine ⟨n + 1, Nat.succ_le_succ hn, ?_, ?_⟩
        · rw [Function.iterate_succ_apply]; exact hex
        · intro m hm
          cases m with
          | zero =>
            rintro (h0 | h0)
            · exact ha h0
            · exact h0 hr
          | succ j =>
            rw [Function.iterate_succ_apply]
            exact hmin j (Nat.lt_of_succ_lt_succ hm)
      · exact ⟨0, Nat.zero_le _, Or.inr hr, fun m hm => absurd hm (Nat.not_lt_zero m)⟩

/-! ## Denominators of the intersection formulas -/

theorem outcodes_ne_of_clipping (s : LoopState)
    (ha : ¬ (s.outcode0 ||| s.outcode1 = 0)) (hr : s.outcode0 &&& s.outcode1 = 0) :
    s.outcode0 ≠ s.outcode1 := by
  intro h
  apply ha
  rw [← h, Nat.and_self] at hr
  rw [← h, hr]
  rfl

/-- In a state of the clipping branch, a vertical bit of the selected outcode makes the
ordinates of the two endpoints differ, and a horizontal bit makes the abscissas differ.
This holds for every rectangle. -/
theorem denominators_ne_zero (rect : Rect) (s : LoopState) (hoc : OutcodesCurrent rect s)
    (hr : s.outcode0 &&& s.outcode1 = 0) :
    (outcodeOut s &&& TOP ≠ 0 ∨ outcodeOut s &&& BOTTOM ≠ 0 → s.y1 - s.y0 ≠ 0) ∧
    (outcodeOut s &&& RIGHT ≠ 0 ∨ outcodeOut s &&& LEFT ≠ 0 → s.x1 - s.x0 ≠ 0) := by
  have hm0 : s.outcode0 ∈ outcodeValues := by rw [hoc.1]; exact ComputeOutCode_mem _ _ _
  have hm1 : s.outcode1 ∈ outcodeValues := by rw [hoc.2]; exact ComputeOutCode_mem _ _ _
  have hns := not_shared s.outcode0 s.outcode1 hm0 hm1 hr
  have kT : TOP = LEFT ∨ TOP = RIGHT ∨ TOP = BOTTOM ∨ TOP = TOP := Or.inr (Or.inr (Or.inr rfl))
  have kB : BOTTOM = LEFT ∨ BOTTOM = RIGHT ∨ BOTTOM = BOTTOM ∨ BOTTOM = TOP :=
    Or.inr (Or.inr (Or.inl rfl))
  have kR : RIGHT = LEFT ∨ RIGHT = RIGHT ∨ RIGHT = BOTTOM ∨ RIGHT = TOP := Or.inr (Or.inl rfl)
  have kL : LEFT = LEFT ∨ LEFT = RIGHT ∨ LEFT = BOTTOM ∨ LEFT = TOP := Or.inl rfl
  have top0 : s.outcode0 &&& TOP ≠ 0 ↔ ¬ s.y0 < rect.yMin ∧ s.y0 > rect.yMax := by
    rw [hoc.1]; exact ComputeOutCode_top _ _ _
  have top1 : s.outcode1 &&& TOP ≠ 0 ↔ ¬ s.y1 < rect.yMin ∧ s.y1 > rect.yMax := by
    rw [hoc.2]; exact ComputeOutCode_top _ _ _
  have bot0 : s.outcode0 &&& BOTTOM ≠ 0 ↔ s.y0 < rect.yMin := by
    rw [hoc.1]; exact ComputeOutCode_bottom _ _ _
  have bot1 : s.outcode1 &&& BOTTOM ≠ 0 ↔ s.y1 < rect.yMin := by
    rw [hoc.2]; exact ComputeOutCode_bottom _ _ _
  have right0 : s.outcode0 &&& RIGHT ≠ 0 ↔ ¬ s.x0 < rect.xMin ∧ s.x0 > rect.xMax := by
    rw [hoc.1]; exact ComputeOutCode_right _ _ _
  have right1 : s.outcode1 &&& RIGHT ≠ 0 ↔ ¬ s.x1 < rect.xMin ∧ s.x1 > rect.xMax := by
    rw [hoc.2]; exact ComputeOutCode_right _ _ _
  have left0 : s.outcode0 &&& LEFT ≠ 0 ↔ s.x0 < rect.xMin := by
    rw [hoc.1]; exact ComputeOutCode_left _ _ _
  have left1 : s.outcode1 &&& LEFT ≠ 0 ↔ s.x1 < rect.xMin := by
    rw [hoc.2]; exact ComputeOutCode_left _ _ _
  constructor
  · intro hbit hden
    have hy : s.y1 = s.y0 := sub_eq_zero.mp hden
    rw [hy] at top1 bot1
    rcases outcodeOut_cases s with h | ⟨h, _⟩ <;> rw [h] at hbit <;> rcases hbit with hb | hb
    · exact hns TOP kT hb (top1.mpr (top0.mp hb))
    · exact hns BOTTOM kB hb (bot1.mpr (bot0.mp hb))
    · exact hns TOP kT (top0.mpr (top1.mp hb)) hb
    · exact hns BOTTOM kB (bot0.mpr (bot1.mp hb)) hb
  · intro hbit hden
    have hx : s.x1 = s.x0 := sub_eq_zero.mp hden
    rw [hx] at right1 left1
    rcases outcodeOut_cases s with h | ⟨h, _⟩ <;> rw [h] at hbit <;> rcases hbit with hb | hb
    · exact hns RIGHT kR hb (right1.mpr (right0.mp hb))
    · exact hns LEFT kL hb (left1.mpr (left0.mp hb))
    · exact hns RIGHT kR (right0.mpr (right1.mp hb)) hb
    · exact hns LEFT kL (left0.mpr (left1.mp hb)) hb

/-- In a state of the clipping branch the selected outcode has one of the four bits set,
so one of the four intersection formulas is selected. -/
theorem outcodeOut_has_bit (rect : Rect) (s : LoopState) (hoc : OutcodesCurrent rect s)
    (ha : ¬ (s.outcode0 ||| s.outcode1 = 0)) :
    outcodeOut s &&& TOP ≠ 0 ∨ outcodeOut s &&& BOTTOM ≠ 0 ∨ outcodeOut s &&& RIGHT ≠ 0 ∨
      outcodeOut s &&& LEFT ≠ 0 := by
  have hmoo : outcodeOut s ∈ outcodeValues := by
    rcases outcodeOut_cases s with h | ⟨h, _⟩ <;> rw [h]
    · rw [hoc.1]; exact ComputeOutCode_mem _ _ _
    · rw [hoc.2]; exact ComputeOutCode_mem _ _ _
  exact outcode_bits_of_ne_zero _ hmoo (outcodeOut_ne_zero s ha)

theorem outcode_bits_exclusive :
    ∀ o ∈ outcodeValues, ¬ (o &&& LEFT ≠ 0 ∧ o &&& RIGHT ≠ 0) ∧
      ¬ (o &&& BOTTOM ≠ 0 ∧ o &&& TOP ≠ 0) := by
  decide

/-! ## The reported edge names a boundary line through the returned point -/

theorem onEdge_intersection (rect : Rect) (s : LoopState) :
    onEdge rect (toEdge (outcodeOut s)) (intersection rect s) := by
  unfold toEdge
  split_ifs with h1 h2 h3 h4
  · simp [onEdge, intersection, h1, LEFT, RIGHT, BOTTOM, TOP, outcode_land_table]
  · simp [onEdge, intersection, h2, LEFT, RIGHT, BOTTOM, TOP, outcode_land_table]
  · simp [onEdge, intersection, h3, LEFT, RIGHT, BOTTOM, TOP, outcode_land_table]
  · simp [onEdge, intersection, h4, LEFT, RIGHT, BOTTOM, TOP, outcode_land_table]
  · trivial

theorem EdgeInv_init (a b : Point) (rect : Rect) : EdgeInv rect (initState a b rect) := by
  refine ⟨fun _ => rfl, fun h => ?_, fun _ => rfl, fun h => ?_⟩
  · have : (initState a b rect).lastEdge0 = 0 := h
    rw [this, toEdge_zero]; trivial
  · have : (initState a b rect).lastEdge1 = 0 := h
    rw [this, toEdge_zero]; trivial

theorem EdgeInv_clipBranch (rect : Rect) (s : LoopState) (h : EdgeInv rect s)
    (ha : ¬ (s.outcode0 ||| s.outcode1 = 0)) : EdgeInv rect (clipBranch rect s) := by
  obtain ⟨h0a, h0b, h1a, h1b⟩ := h
  have hne := outcodeOut_ne_zero s ha
  have hon := onEdge_intersection rect s
  by_cases hsel : outcodeOut s = s.outcode0
  · rw [clipBranch_of_sel rect s hsel]
    refine ⟨fun hz => ?_, fun hz => ?_, h1a, h1b⟩
    · simp only [ne_eq] at hz
      simp only [ne_eq, hz, not_false_eq_true, if_true]
    · simp only at hz
      simp only [hz, ne_eq, not_true_eq_false, if_false]
      rw [h0a (hsel ▸ hne), ← hsel]
      exact hon
  · have hsel1 : outcodeOut s = s.outcode1 := by
      rcases outcodeOut_cases s with h | h
      · exact absurd h hsel
      · exact h.1
    rw [clipBranch_of_not_sel rect s hsel]
    refine ⟨h0a, h0b, fun hz => ?_, fun hz => ?_⟩
    · simp only [ne_eq] at hz
      simp only [ne_eq, hz, not_false_eq_true, if_true]
    · simp only at hz
      simp only [hz, ne_eq, not_true_eq_false, if_false]
      rw [h1a (hsel1 ▸ hne), ← hsel1]
      exact hon

/-- For every rectangle, the edges of an accepted result name boundary lines on which
the returned points lie. -/
theorem accept_onEdge (fuel : Nat) (a b : Point) (rect : Rect) (r : ClipResult)
    (h : CohenSutherlandLineClip fuel a b rect = some (some r)) :
    onEdge rect r.startClipEdge r.start ∧ onEdge rect r.endClipEdge r.«end» := by
  obtain ⟨s, hs, hres⟩ := clipLoop_final rect (EdgeInv rect)
    (fun s hs ha _ => EdgeInv_clipBranch rect s hs ha) fuel _
    (EdgeInv_init a b rect) _ h
  rcases hres with ⟨ha, hres⟩ | ⟨_, hres⟩
  swap
  · cases hres
  obtain ⟨h0, h1⟩ := (lor_eq_zero_iff _ _).mp ha
  rw [Option.some.inj hres]
  exact ⟨hs.2.1 h0, hs.2.2.2 h1⟩

/-! ## Reversing the segment -/

theorem outcodeOut_swapState (s : LoopState) (hne : s.outcode0 ≠ s.outcode1) :
    outcodeOut (swapState s) = outcodeOut s := by
  unfold outcodeOut swapState
  simp only
  split_ifs with h1 h2 h2
  · exact absurd h1 (Nat.lt_asymm h2)
  · rfl
  · rfl
  · exact absurd (Nat.le_antisymm (Nat.not_lt.mp h1) (Nat.not_lt.mp h2)) hne

theorem intersection_swapState (rect : Rect) (s : LoopState) (hoc : OutcodesCurrent rect s)
    (ha : ¬ (s.outcode0 ||| s.outcode1 = 0)) (hr : s.outcode0 &&& s.outcode1 = 0) :
    intersection rect (swapState s) = intersection rect s := by
  have hden := denominators_ne_zero rect s hoc hr
  have hoo := outcodeOut_swapState s (outcodes_ne_of_clipping s ha hr)
  have hbits := outcodeOut_has_bit rect s hoc ha
  unfold intersection
  rw [hoo]
  by_cases hT : outcodeOut s &&& TOP ≠ 0
  · have hy := hden.1 (Or.inl hT)
    have hy' : s.y0 - s.y1 ≠ 0 := fun h => hy (by linarith)
    simp only [hT, ne_eq, not_false_eq_true, if_true, swapState]
    refine Prod.ext ?_ rfl
    simp only
    field_simp
    ring
  · by_cases hB : outcodeOut s &&& BOTTOM ≠ 0
    · have hy := hden.1 (Or.inr hB)
      have hy' : s.y0 - s.y1 ≠ 0 := fun h => hy (by linarith)
      simp only [hT, hB, ne_eq, not_false_eq_true, if_true, if_false, swapState]
      refine Prod.ext ?_ rfl
      simp only
      field_simp
      ring
    · by_cases hR : outcodeOut s &&& RIGHT ≠ 0
      · have hx := hden.2 (Or.inl hR)
        have hx' : s.x0 - s.x1 ≠ 0 := fun h => hx (by linarith)
        simp only [hT, hB, hR, ne_eq, not_false_eq_true, if_true, if_false, swapState]
        refine Prod.ext rfl ?_
        simp only
        field_simp
        ring
      · have hL : outcodeOut s &&& LEFT ≠ 0 := by
          rcases hbits with h | h | h | h
          · exact absurd h hT
          · exact absurd h hB
          · exact absurd h hR
          · exact h
        have hx := hden.2 (Or.inr hL)
        have hx' : s.x0 - s.x1 ≠ 0 := fun h => hx (by linarith)
        simp only [hT, hB, hR, hL, ne_eq, not_false_eq_true, if_true, if_false, swapState]
        refine Prod.ext rfl ?_
        simp only
        field_simp
        ring

/-- The clipping branch commutes with exchanging the endpoints. -/
theorem clipBranch_swapState (rect : Rect) (s : LoopState) (hoc : OutcodesCurrent rect s)
    (ha : ¬ (s.outcode0 ||| s.outcode1 = 0)) (hr : s.outcode0 &&& s.outcode1 = 0) :
    clipBranch rect (swapState s) = swapState (clipBranch rect s) := by
  have hne := outcodes_ne_of_clipping s ha hr
  have hoo := outcodeOut_swapState s hne
  have hi := intersection_swapState rect s hoc ha hr
  by_cases hsel : outcodeOut s = s.outcode0
  · have hsel' : outcodeOut (swapState s) ≠ (swapState s).outcode0 := by
      rw [hoo, hsel]; exact hne
    rw [clipBranch_of_not_sel rect _ hsel', clipBranch_of_sel rect s hsel, hi]
    rfl
  · have hsel1 : outcodeOut s = s.outcode1 := by
      rcases outcodeOut_cases s with h | h
      · exact absurd h hsel
      · exact h.1
    have hsel' : outcodeOut (swapState s) = (swapState s).outcode0 := by
      rw [hoo, hsel1]; rfl
    rw [clipBranch_of_sel rect _ hsel', clipBranch_of_not_sel rect s hsel, hi]
    rfl

theorem OutcodesCurrent_swapState (rect : Rect) (s : LoopState)
    (h : OutcodesCurrent rect s) : OutcodesCurrent rect (swapState s) :=
  ⟨h.2, h.1⟩

/-- The loop run from the exchanged state returns the exchanged result, with the same
fuel. -/
theorem clipLoop_swapState (rect : Rect) :
    ∀ (fuel : Nat) (s : LoopState), OutcodesCurrent rect s →
      clipLoop rect fuel (swapState s) = (clipLoop rect fuel s).map (Option.map swapResult) := by
  intro fuel
  induction fuel with
  | zero =>
    intro s hoc
    by_cases ha : s.outcode0 ||| s.outcode1 = 0
    · have ha' : (swapState s).outcode0 ||| (swapState s).outcode1 = 0 := by
        rw [← ha]; exact Nat.lor_comm _ _
      rw [clipLoop_accept rect _ s ha, clipLoop_accept rect _ _ ha']
      rfl
    · have ha' : ¬ ((swapState s).outcode0 ||| (swapState s).outcode1 = 0) := by
        intro h; apply ha; rw [← h]; exact Nat.lor_comm _ _
      by_cases hr : s.outcode0 &&& s.outcode1 = 0
      · have hr' : (swapState s).outcode0 &&& (swapState s).outcode1 = 0 := by
          rw [← hr]; exact Nat.land_comm _ _
        rw [clipLoop_zero rect s ha hr, clipLoop_zero rect _ ha' hr']
        rfl
      · have hr' : (swapState s).outcode0 &&& (swapState s).outcode1 ≠ 0 := by
          intro h; apply hr; rw [← h]; exact Nat.land_comm _ _
        rw [clipLoop_reject rect _ s hr, clipLoop_reject rect _ _ hr']
        rfl
  | succ n ih =>
    intro s hoc
    by_cases ha : s.outcode0 ||| s.outcode1 = 0
    · have ha' : (swapState s).outcode0 ||| (swapState s).outcode1 = 0 := by
        rw [← ha]; exact Nat.lor_comm _ _
      rw [clipLoop_accept rect _ s ha, clipLoop_accept rect _ _ ha']
      rfl
    · have ha' : ¬ ((swapState s).outcode0 ||| (swapState s).outcode1 = 0) := by
        intro h; apply ha; rw [← h]; exact Nat.lor_comm _ _
      by_cases hr : s.outcode0 &&& s.outcode1 = 0
      · have hr' : (swapState s).outcode0 &&& (swapState s).outcode1 = 0 := by
          rw [← hr]; exact Nat.land_comm _ _
        rw [clipLoop_step rect n s ha hr, clipLoop_step rect n _ ha' hr',
          clipBranch_swapState rect s hoc ha hr]
        exact ih _ (OutcodesCurrent_clipBranch rect s hoc)
      · have hr' : (swapState s).outcode0 &&& (swapState s).outcode1 ≠ 0 := by
          intro h; apply hr; rw [← h]; exact Nat.land_comm _ _
        rw [clipLoop_reject rect _ s hr, clipLoop_reject rect _ _ hr']
        rfl

/-- Clipping the reversed segment returns the exchanged result. -/
theorem CohenSutherlandLineClip_reverse (fuel : Nat) (a b : Point) (rect : Rect) :
    CohenSutherlandLineClip fuel b a rect =
      (CohenSutherlandLineClip fuel a b rect).map (Option.map swapResult) :=
  clipLoop_swapState rect fuel (initState a b rect) (OutcodesCurrent_init a b rect)

/-! ## The model over `ℚ` is the NaN-free part of the model over doubles -/

theorem ComputeOutCode_toDbl (x y : ℚ) (rect : Rect) :
    ieee.ComputeOutCode (Dbl.num x) (Dbl.num y) (toDblRect rect) = ComputeOutCode x y rect :=
  rfl

theorem ieee_ComputeOutCode_mem (x y : Dbl) (rect : ieee.Rect) :
    ieee.ComputeOutCode x y rect ∈ outcodeValues := by
  unfold ieee.ComputeOutCode
  simp only [INSIDE, LEFT, RIGHT, BOTTOM, TOP]
  split_ifs <;> decide

/-! ## The claims -/

/-- C1: with a well-formed rectangle and fuel for four executions of the clipping
branch, `CohenSutherlandLineClip a b rect` returns no value (rejects) if and only if no
point of the closed segment from `a` to `b` lies in the closed rectangle; equivalently
it accepts exactly when the segment has a point in the rectangle. -/
theorem C1_reject_iff_no_visible_point (a b : Point) (rect : Rect) (hwf : rect.WellFormed)
    (fuel : Nat) (hfuel : 4 ≤ fuel) :
    (CohenSutherlandLineClip fuel a b rect = some none ↔
      ¬ ∃ p, onSegment a b p ∧ inRect rect p) ∧
    ((∃ r, CohenSutherlandLineClip fuel a b rect = some (some r)) ↔
      ∃ p, onSegment a b p ∧ inRect rect p) := by
  have h1 := reject_iff a b rect hwf fuel hfuel
  refine ⟨h1, ?_, ?_⟩
  · rintro ⟨r, hr⟩
    by_contra hno
    rw [h1.mpr hno] at hr
    cases hr
  · intro hvis
    obtain ⟨res, hres⟩ := CohenSutherlandLineClip_returns a b rect hwf fuel hfuel
    cases res with
    | none => exact absurd hvis (h1.mp hres)
    | some r => exact ⟨r, hres⟩

theorem C1_witness :
    rect10.WellFormed ∧ 4 ≤ 4 ∧
    ((CohenSutherlandLineClip 4 (-5, 5) (15, 5) rect10 = some none ↔
      ¬ ∃ p, onSegment (-5, 5) (15, 5) p ∧ inRect rect10 p) ∧
    ((∃ r, CohenSutherlandLineClip 4 (-5, 5) (15, 5) rect10 = some (some r)) ↔
      ∃ p, onSegment (-5, 5) (15, 5) p ∧ inRect rect10 p)) :=
  ⟨by decide!, by decide,
    C1_reject_iff_no_visible_point (-5, 5) (15, 5) rect10 (by decide!) 4 (by decide)⟩

/-- C2: with a well-formed rectangle, whenever `CohenSutherlandLineClip a b rect` accepts
with result `r`, the points of the closed segment from `r.start` to `r.end` are exactly
the points of the closed segment from `a` to `b` that lie in the closed rectangle, and
`r.start = a + t0 (b - a)`, `r.end = a + t1 (b - a)` with `0 ≤ t0 ≤ t1 ≤ 1`. -/
theorem C2_accept_is_visible_portion (a b : Point) (rect : Rect) (hwf : rect.WellFormed)
    (fuel : Nat) (r : ClipResult)
    (h : CohenSutherlandLineClip fuel a b rect = some (some r)) :
    (∀ p, onSegment r.start r.«end» p ↔ onSegment a b p ∧ inRect rect p) ∧
    ∃ t0 t1 : ℚ, 0 ≤ t0 ∧ t0 ≤ t1 ∧ t1 ≤ 1 ∧
      r.start = pointAt a b t0 ∧ r.«end» = pointAt a b t1 := by
  obtain ⟨t0, t1, h0, h01, h1, hs, he, _, _, hset⟩ := accept_visible a b rect hwf fuel r h
  exact ⟨hset, t0, t1, h0, h01, h1, hs, he⟩

theorem C2_witness :
    rect10.WellFormed ∧
    CohenSutherlandLineClip 4 (-5, 5) (15, 5) rect10 =
      some (some { startClipEdge := Edge.Left, endClipEdge := Edge.Right,
                   start := (0, 5), «end» := (10, 5) }) ∧
    ((∀ p, onSegment (0, 5) (10, 5) p ↔ onSegment (-5, 5) (15, 5) p ∧ inRect rect10 p) ∧
    ∃ t0 t1 : ℚ, 0 ≤ t0 ∧ t0 ≤ t1 ∧ t1 ≤ 1 ∧
      ((0, 5) : Point) = pointAt (-5, 5) (15, 5) t0 ∧
      ((10, 5) : Point) = pointAt (-5, 5) (15, 5) t1) :=
  ⟨by decide!, by decide!,
    C2_accept_is_visible_portion (-5, 5) (15, 5) rect10 (by decide!) 4
      { startClipEdge := Edge.Left, endClipEdge := Edge.Right,
        start := (0, 5), «end» := (10, 5) } (by decide!)⟩

/-- C3 (fails on the code): on the polyline `[(-1,5), (5,5), (5,-1), (11,5)]` and the
rectangle `0..10`, the output of `clip` covers the point `(15/2, 2)`, which lies on no
segment of the input polyline: the output holds the segment `(5,0)-(10,4)`, which is
not part of the original path. -/
theorem C3_output_covers_point_off_path :
    clip 4 reentryLine rect10 = some [[(0, 5), (5, 5), (5, 0), (10, 4)]] ∧
    onPolyline [(0, 5), (5, 5), (5, 0), (10, 4)] (15 / 2, 2) ∧
    ¬ onPolyline reentryLine (15 / 2, 2) := by
  refine ⟨by decide!, ⟨((5, 0), (10, 4)), by simp [segments], 1 / 2, by norm_num, by norm_num,
    by simp [pointAt]; norm_num⟩, ?_⟩
  rintro ⟨seg, hseg, t, _, _, ht⟩
  simp only [reentryLine, segments, List.tail_cons, List.zip_cons_cons, List.zip_nil_right,
    List.mem_cons, List.mem_singleton, List.not_mem_nil, or_false] at hseg
  rcases hseg with rfl | rfl | rfl
  · have h2 := congrArg Prod.snd ht
    simp [pointAt] at h2
  · have h1 := congrArg Prod.fst ht
    simp [pointAt] at h1
    norm_num at h1
  · have h1 := congrArg Prod.fst ht
    have h2 := congrArg Prod.snd ht
    simp [pointAt] at h1 h2
    linarith

/-- C4: for every rectangle and all points `a`, `b` in the closed rectangle,
`CohenSutherlandLineClip a b rect` accepts and returns `start = a`, `end = b`,
`startClipEdge = NoEdge` and `endClipEdge = NoEdge`. -/
theorem C4_inside_unchanged (rect : Rect) (a b : Point) (ha : inRect rect a)
    (hb : inRect rect b) (fuel : Nat) :
    CohenSutherlandLineClip fuel a b rect =
      some (some { startClipEdge := Edge.NoEdge, endClipEdge := Edge.NoEdge,
                   start := a, «end» := b }) :=
  CohenSutherlandLineClip_inside fuel a b rect ha hb

theorem C4_witness :
    inRect rect10 (1, 2) ∧ inRect rect10 (10, 0) ∧
    CohenSutherlandLineClip 0 (1, 2) (10, 0) rect10 =
      some (some { startClipEdge := Edge.NoEdge, endClipEdge := Edge.NoEdge,
                   start := (1, 2), «end» := (10, 0) }) :=
  ⟨by decide!, by decide!, C4_inside_unchanged rect10 (1, 2) (10, 0) (by decide!) (by decide!) 0⟩

/-- C5: for every well-formed rectangle and all points `a`, `b` strictly outside on the
same side (both `x < xMin`, or both `x > xMax`, or both `y < yMin`, or both `y > yMax`),
`CohenSutherlandLineClip a b rect` returns no value. -/
theorem C5_same_side_rejected (rect : Rect) (hwf : rect.WellFormed) (a b : Point)
    (h : (a.1 < rect.xMin ∧ b.1 < rect.xMin) ∨ (a.1 > rect.xMax ∧ b.1 > rect.xMax) ∨
         (a.2 < rect.yMin ∧ b.2 < rect.yMin) ∨ (a.2 > rect.yMax ∧ b.2 > rect.yMax))
    (fuel : Nat) :
    CohenSutherlandLineClip fuel a b rect = some none :=
  CohenSutherlandLineClip_same_side fuel a b rect hwf h

theorem C5_witness :
    rect10.WellFormed ∧
    ((((11, 3) : Point).1 < rect10.xMin ∧ ((12, -4) : Point).1 < rect10.xMin) ∨
     (((11, 3) : Point).1 > rect10.xMax ∧ ((12, -4) : Point).1 > rect10.xMax) ∨
     (((11, 3) : Point).2 < rect10.yMin ∧ ((12, -4) : Point).2 < rect10.yMin) ∨
     (((11, 3) : Point).2 > rect10.yMax ∧ ((12, -4) : Point).2 > rect10.yMax)) ∧
    CohenSutherlandLineClip 0 (11, 3) (12, -4) rect10 = some none :=
  ⟨by decide!, by decide!,
    C5_same_side_rejected rect10 (by decide!) (11, 3) (12, -4) (by decide!) 0⟩

/-- C6: for every rectangle and every polyline of at least two points, all of them in
the closed rectangle, `clip line rect` returns exactly one polyline, equal to the
input. -/
theorem C6_inside_polyline_unchanged (rect : Rect) (line : Line) (hlen : 2 ≤ line.length)
    (hall : ∀ p ∈ line, inRect rect p) (fuel : Nat) :
    clip fuel line rect = some [line] :=
  clip_inside fuel rect line hlen hall

theorem C6_witness :
    2 ≤ ([(1, 1), (2, 3), (10, 10)] : Line).length ∧
    (∀ p ∈ ([(1, 1), (2, 3), (10, 10)] : Line), inRect rect10 p) ∧
    clip 0 [(1, 1), (2, 3), (10, 10)] rect10 = some [[(1, 1), (2, 3), (10, 10)]] :=
  ⟨by decide, by decide!,
    C6_inside_polyline_unchanged rect10 [(1, 1), (2, 3), (10, 10)] (by decide) (by decide!) 0⟩

/-- C7: with a well-formed rectangle and fuel for four executions of the clipping branch
per segment, a polyline none of whose segments has a point in the closed rectangle is
clipped to the empty sequence. -/
theorem C7_outside_polyline_empty (rect : Rect) (hwf : rect.WellFormed) (line : Line)
    (hout : ∀ p, onPolyline line p → ¬ inRect rect p) (fuel : Nat) (hfuel : 4 ≤ fuel) :
    clip fuel line rect = some [] :=
  clip_outside fuel hfuel rect hwf line hout

theorem outsideLine_not_visible :
    ∀ p, onPolyline [(-5, -5), (-3, 20), (4, 12)] p → ¬ inRect rect10 p := by
  rintro p ⟨seg, hseg, t, ht0, ht1, rfl⟩ ⟨h1, h2, h3, h4⟩
  simp only [segments, List.tail_cons, List.zip_cons_cons, List.zip_nil_right,
    List.mem_cons, List.mem_singleton, List.not_mem_nil, or_false] at hseg
  rcases hseg with rfl | rfl
  · simp only [pointAt, rect10] at h1
    linarith
  · simp only [pointAt, rect10] at h1 h4
    linarith

theorem C7_witness :
    rect10.WellFormed ∧ 4 ≤ 4 ∧
    (∀ p, onPolyline [(-5, -5), (-3, 20), (4, 12)] p → ¬ inRect rect10 p) ∧
    clip 4 [(-5, -5), (-3, 20), (4, 12)] rect10 = some [] :=
  ⟨by decide!, by decide, outsideLine_not_visible,
    C7_outside_polyline_empty rect10 (by decide!) [(-5, -5), (-3, 20), (4, 12)]
      outsideLine_not_visible 4 (by decide)⟩

/-- C8 (fails on the code): `clip` applied to `[(-1,5), (5,5), (5,-1), (11,5)]` and the
rectangle `0..10` returns one polyline, `[(0,5), (5,5), (5,0), (10,4)]`, not two: the
accumulator is not flushed at the exit through the bottom edge at `(5,0)`, and the end
`(10,4)` of the re-entry segment is appended to it. -/
theorem C8_reentry_returns_one_polyline :
    clip 4 reentryLine rect10 = some [[(0, 5), (5, 5), (5, 0), (10, 4)]] := by
  decide!

/-- C9: `CohenSutherlandLineClip` applied to `a = (-5, 5)`, `b = (15, 5)` and the
rectangle `0..10` accepts and returns `start = (0, 5)`, `end = (10, 5)`,
`startClipEdge = Left` and `endClipEdge = Right` (two executions of the clipping branch
are needed, and more fuel does not change the result). -/
theorem C9_horizontal_example (fuel : Nat) (hfuel : 2 ≤ fuel) :
    CohenSutherlandLineClip fuel (-5, 5) (15, 5) rect10 =
      some (some { startClipEdge := Edge.Left, endClipEdge := Edge.Right,
                   start := (0, 5), «end» := (10, 5) }) :=
  clipLoop_mono rect10 2 _ _ (by decide!) fuel hfuel

theorem C9_witness :
    2 ≤ 4 ∧
    CohenSutherlandLineClip 4 (-5, 5) (15, 5) rect10 =
      some (some { startClipEdge := Edge.Left, endClipEdge := Edge.Right,
                   start := (0, 5), «end» := (10, 5) }) :=
  ⟨by decide, C9_horizontal_example 4 (by decide)⟩

/-- C10 (fails on the code): for `a = (-1, 13)`, `b = (5, 1)` and the rectangle `0..10`
the clipper accepts with start `(1/2, 10)`, clipped against the top edge, and reports
`startClipEdge = NoEdge` although `a` is outside the rectangle: `lastEdge0` still holds
the two-bit outcode of `a`, which `toEdge` maps to `NoEdge`. In `clip` the same happens
to the end of the segment `(5,1)-(-1,13)`, so the accumulator is not flushed at the exit
and `[(5,1), (-1,13), (8,5)]` is clipped to the single polyline
`[(5,1), (1/2,10), (8,5)]`, while the exit through the top edge alone in
`[(5,1), (5,13), (8,5)]` splits the output in two. -/
theorem C10_corner_point_reported_NoEdge :
    rect10.WellFormed ∧
    CohenSutherlandLineClip 4 (-1, 13) (5, 1) rect10 =
      some (some { startClipEdge := Edge.NoEdge, endClipEdge := Edge.NoEdge,
                   start := (1 / 2, 10), «end» := (5, 1) }) ∧
    ¬ inRect rect10 (-1, 13) ∧
    CohenSutherlandLineClip 4 (5, 1) (-1, 13) rect10 =
      some (some { startClipEdge := Edge.NoEdge, endClipEdge := Edge.NoEdge,
                   start := (5, 1), «end» := (1 / 2, 10) }) ∧
    clip 4 [(5, 1), (-1, 13), (8, 5)] rect10 = some [[(5, 1), (1 / 2, 10), (8, 5)]] ∧
    clip 4 [(5, 1), (5, 13), (8, 5)] rect10 =
      some [[(5, 1), (5, 10)], [(49 / 8, 10), (8, 5)]] := by
  decide!

/-- C11: with a well-formed rectangle, the loop of `CohenSutherlandLineClip` terminates
after at most 4 executions of the clipping branch: fuel for 4 executions gives a result,
and some iterate of the clipping branch of index `n ≤ 4` is the first state from which
the loop exits (by `return` or by `break`). -/
theorem C11_terminates_within_four (a b : Point) (rect : Rect) (hwf : rect.WellFormed) :
    (∃ res, CohenSutherlandLineClip 4 a b rect = some res) ∧
    ∃ n, n ≤ 4 ∧ exits (Nat.iterate (clipBranch rect) n (initState a b rect)) ∧
      ∀ m, m < n → ¬ exits (Nat.iterate (clipBranch rect) m (initState a b rect)) := by
  obtain ⟨res, hres⟩ := CohenSutherlandLineClip_returns a b rect hwf 4 (le_refl _)
  exact ⟨⟨res, hres⟩, clipLoop_exits_within rect 4 _ res hres⟩

theorem C11_witness :
    rect10.WellFormed ∧
    ((∃ res, CohenSutherlandLineClip 4 (-3, 11) (15, -1) rect10 = some res) ∧
    ∃ n, n ≤ 4 ∧
      exits (Nat.iterate (clipBranch rect10) n (initState (-3, 11) (15, -1) rect10)) ∧
      ∀ m, m < n →
        ¬ exits (Nat.iterate (clipBranch rect10) m (initState (-3, 11) (15, -1) rect10))) :=
  ⟨by decide!, C11_terminates_within_four (-3, 11) (15, -1) rect10 (by decide!)⟩

/-- C12: for every rectangle and every polyline with fewer than two points, `clip`
returns the empty sequence. -/
theorem C12_short_polyline_empty (rect : Rect) (line : Line) (h : line.length < 2)
    (fuel : Nat) : clip fuel line rect = some [] := by
  match line, h with
  | [], _ => rfl
  | [_], _ => rfl
  | _ :: _ :: _, h => exact absurd h (by simp only [List.length_cons]; omega)

theorem C12_witness :
    ([(50, 50)] : Line).length < 2 ∧ clip 0 [(50, 50)] rect10 = some [] :=
  ⟨by decide, C12_short_polyline_empty rect10 [(50, 50)] (by decide) 0⟩

/-- C14 (fails on the code): on `[(-1,5), (5,5), (5,-1), (11,5)]` and the rectangle
`0..10`, after the first two segments the accumulator is `[(0,5), (5,5), (5,0)]`; the
third segment is accepted with start `(6,0)`, which is not the last point `(5,0)` of the
accumulator, and only its end is appended. -/
theorem C14_accepted_start_differs_from_tail :
    clipFor 4 rect10 (-1, 5) [(5, 5), (5, -1)] [] [] =
      some ([], [(0, 5), (5, 5), (5, 0)]) ∧
    CohenSutherlandLineClip 4 (5, -1) (11, 5) rect10 =
      some (some { startClipEdge := Edge.Bottom, endClipEdge := Edge.Right,
                   start := (6, 0), «end» := (10, 4) }) ∧
    ([(0, 5), (5, 5), (5, 0)] : Line).getLast? = some (5, 0) ∧
    ((6, 0) : Point) ≠ (5, 0) ∧
    clipFor 4 rect10 (-1, 5) [(5, 5), (5, -1), (11, 5)] [] [] =
      some ([], [(0, 5), (5, 5), (5, 0), (10, 4)]) := by
  decide!

/-- C15: in every state in which the loop of `CohenSutherlandLineClip` reaches the
clipping branch, one of the four intersection formulas is selected and its denominator
is non-zero: `y1 - y0 ≠ 0` when the TOP or BOTTOM bit of the selected outcode is set,
`x1 - x0 ≠ 0` when its RIGHT or LEFT bit is set. This holds for every rectangle, so in
particular for the well-formed ones. -/
theorem C15_denominators_ne_zero (rect : Rect) (a b : Point) (s : LoopState)
    (hreach : Reachable rect a b s) (ha : ¬ (s.outcode0 ||| s.outcode1 = 0))
    (hr : s.outcode0 &&& s.outcode1 = 0) :
    (outcodeOut s &&& TOP ≠ 0 ∨ outcodeOut s &&& BOTTOM ≠ 0 ∨ outcodeOut s &&& RIGHT ≠ 0 ∨
      outcodeOut s &&& LEFT ≠ 0) ∧
    (outcodeOut s &&& TOP ≠ 0 ∨ outcodeOut s &&& BOTTOM ≠ 0 → s.y1 - s.y0 ≠ 0) ∧
    (outcodeOut s &&& RIGHT ≠ 0 ∨ outcodeOut s &&& LEFT ≠ 0 → s.x1 - s.x0 ≠ 0) := by
  have hoc := Reachable_OutcodesCurrent rect a b s hreach
  exact ⟨outcodeOut_has_bit rect s hoc ha, denominators_ne_zero rect s hoc hr⟩

theorem C15_witness :
    Reachable rect10 (-1, 13) (15, -1) (clipBranch rect10 (initState (-1, 13) (15, -1) rect10)) ∧
    ¬ ((clipBranch rect10 (initState (-1, 13) (15, -1) rect10)).outcode0 |||
        (clipBranch rect10 (initState (-1, 13) (15, -1) rect10)).outcode1 = 0) ∧
    (clipBranch rect10 (initState (-1, 13) (15, -1) rect10)).outcode0 &&&
        (clipBranch rect10 (initState (-1, 13) (15, -1) rect10)).outcode1 = 0 ∧
    ((outcodeOut (clipBranch rect10 (initState (-1, 13) (15, -1) rect10)) &&& TOP ≠ 0 ∨
      outcodeOut (clipBranch rect10 (initState (-1, 13) (15, -1) rect10)) &&& BOTTOM ≠ 0 ∨
      outcodeOut (clipBranch rect10 (initState (-1, 13) (15, -1) rect10)) &&& RIGHT ≠ 0 ∨
      outcodeOut (clipBranch rect10 (initState (-1, 13) (15, -1) rect10)) &&& LEFT ≠ 0) ∧
    (outcodeOut (clipBranch rect10 (initState (-1, 13) (15, -1) rect10)) &&& TOP ≠ 0 ∨
      outcodeOut (clipBranch rect10 (initState (-1, 13) (15, -1) rect10)) &&& BOTTOM ≠ 0 →
      (clipBranch rect10 (initState (-1, 13) (15, -1) rect10)).y1 -
        (clipBranch rect10 (initState (-1, 13) (15, -1) rect10)).y0 ≠ 0) ∧
    (outcodeOut (clipBranch rect10 (initState (-1, 13) (15, -1) rect10)) &&& RIGHT ≠ 0 ∨
      outcodeOut (clipBranch rect10 (initState (-1, 13) (15, -1) rect10)) &&& LEFT ≠ 0 →
      (clipBranch rect10 (initState (-1, 13) (15, -1) rect10)).x1 -
        (clipBranch rect10 (initState (-1, 13) (15, -1) rect10)).x0 ≠ 0)) :=
  ⟨Reachable.step _ Reachable.init (by decide!) (by decide!), by decide!, by decide!,
    C15_denominators_ne_zero rect10 (-1, 13) (15, -1) _
      (Reachable.step _ Reachable.init (by decide!) (by decide!)) (by decide!) (by decide!)⟩

/-- C16 as stated fails: the source works on `double`, and for a NaN coordinate every
comparison of `ComputeOutCode` is false, so the point `(NaN, 5)` has outcode 0 although
it does not satisfy `xMin ≤ x ≤ xMax`. -/
theorem C16_counterexample :
    ieee.ComputeOutCode Dbl.nan (Dbl.num 5) (toDblRect rect10) = 0 ∧
    ¬ ((toDblRect rect10).xMin ≤ Dbl.nan ∧ Dbl.nan ≤ (toDblRect rect10).xMax ∧
       (toDblRect rect10).yMin ≤ Dbl.num 5 ∧ Dbl.num 5 ≤ (toDblRect rect10).yMax) := by
  decide!

/-- C16 (amended): for every rectangle and every point whose bounds and coordinates are
numbers (not NaN), `ComputeOutCode` is 0 if and only if `xMin ≤ x ≤ xMax` and
`yMin ≤ y ≤ yMax`; a point on the boundary `x = xMax` has outcode 0 exactly when
`xMin ≤ xMax` and its `y` is in range; and for every input, NaN included, the result
never has both LEFT and RIGHT set, nor both BOTTOM and TOP. -/
theorem C16_outcode_zero_iff_inside_of_numbers (rect : Rect) (x y : ℚ) :
    (ieee.ComputeOutCode (Dbl.num x) (Dbl.num y) (toDblRect rect) = 0 ↔
      rect.xMin ≤ x ∧ x ≤ rect.xMax ∧ rect.yMin ≤ y ∧ y ≤ rect.yMax) ∧
    (ieee.ComputeOutCode (Dbl.num rect.xMax) (Dbl.num y) (toDblRect rect) = 0 ↔
      rect.xMin ≤ rect.xMax ∧ rect.yMin ≤ y ∧ y ≤ rect.yMax) ∧
    (∀ (u v : Dbl) (r : ieee.Rect),
      ¬ (ieee.ComputeOutCode u v r &&& LEFT ≠ 0 ∧ ieee.ComputeOutCode u v r &&& RIGHT ≠ 0) ∧
      ¬ (ieee.ComputeOutCode u v r &&& BOTTOM ≠ 0 ∧ ieee.ComputeOutCode u v r &&& TOP ≠ 0)) := by
  refine ⟨?_, ?_, fun u v r => outcode_bits_exclusive _ (ieee_ComputeOutCode_mem u v r)⟩
  · rw [ComputeOutCode_toDbl]
    exact ComputeOutCode_eq_zero x y rect
  · rw [ComputeOutCode_toDbl, ComputeOutCode_eq_zero]
    unfold inRect
    simp

/-- C17: in every accepted result of `CohenSutherlandLineClip`, a reported edge other
than `NoEdge` names the boundary line the returned point lies on: `Left` gives
`x = xMin`, `Right` gives `x = xMax`, `Bottom` gives `y = yMin`, `Top` gives `y = yMax`,
for the start and for the end. This holds for every rectangle, so in particular for the
well-formed ones. -/
theorem C17_edge_names_boundary (rect : Rect) (fuel : Nat) (a b : Point) (r : ClipResult)
    (h : CohenSutherlandLineClip fuel a b rect = some (some r)) :
    (r.startClipEdge = Edge.Left → r.start.1 = rect.xMin) ∧
    (r.startClipEdge = Edge.Right → r.start.1 = rect.xMax) ∧
    (r.startClipEdge = Edge.Bottom → r.start.2 = rect.yMin) ∧
    (r.startClipEdge = Edge.Top → r.start.2 = rect.yMax) ∧
    (r.endClipEdge = Edge.Left → r.«end».1 = rect.xMin) ∧
    (r.endClipEdge = Edge.Right → r.«end».1 = rect.xMax) ∧
    (r.endClipEdge = Edge.Bottom → r.«end».2 = rect.yMin) ∧
    (r.endClipEdge = Edge.Top → r.«end».2 = rect.yMax) := by
  obtain ⟨hs, he⟩ := accept_onEdge fuel a b rect r h
  refine ⟨fun e => ?_, fun e => ?_, fun e => ?_, fun e => ?_,
    fun e => ?_, fun e => ?_, fun e => ?_, fun e => ?_⟩
  · rw [e] at hs; exact hs
  · rw [e] at hs; exact hs
  · rw [e] at hs; exact hs
  · rw [e] at hs; exact hs
  · rw [e] at he; exact he
  · rw [e] at he; exact he
  · rw [e] at he; exact he
  · rw [e] at he; exact he

theorem C17_witness :
    CohenSutherlandLineClip 4 (-3, 11) (15, -1) rect10 =
      some (some { startClipEdge := Edge.Left, endClipEdge := Edge.Right,
                   start := (0, 9), «end» := (10, 7 / 3) }) ∧
    ((Edge.Left = Edge.Left → ((0, 9) : Point).1 = rect10.xMin) ∧
    (Edge.Left = Edge.Right → ((0, 9) : Point).1 = rect10.xMax) ∧
    (Edge.Left = Edge.Bottom → ((0, 9) : Point).2 = rect10.yMin) ∧
    (Edge.Left = Edge.Top → ((0, 9) : Point).2 = rect10.yMax) ∧
    (Edge.Right = Edge.Left → ((10, 7 / 3) : Point).1 = rect10.xMin) ∧
    (Edge.Right = Edge.Right → ((10, 7 / 3) : Point).1 = rect10.xMax) ∧
    (Edge.Right = Edge.Bottom → ((10, 7 / 3) : Point).2 = rect10.yMin) ∧
    (Edge.Right = Edge.Top → ((10, 7 / 3) : Point).2 = rect10.yMax)) :=
  ⟨by decide!,
    C17_edge_names_boundary rect10 4 (-3, 11) (15, -1)
      { startClipEdge := Edge.Left, endClipEdge := Edge.Right,
        start := (0, 9), «end» := (10, 7 / 3) } (by decide!)⟩

/-- C18: `CohenSutherlandLineClip` is symmetric under reversing the segment: for every
rectangle, all points `a`, `b` and every fuel, the result for `(b, a)` is the result for
`(a, b)` with start and end exchanged and `startClipEdge` and `endClipEdge` exchanged;
in particular `(b, a)` is rejected if and only if `(a, b)` is, and the loop runs out of
fuel on `(b, a)` if and only if it does on `(a, b)`. -/
theorem C18_reverse_symmetric (rect : Rect) (fuel : Nat) (a b : Point) :
    CohenSutherlandLineClip fuel b a rect =
      (CohenSutherlandLineClip fuel a b rect).map (Option.map swapResult) ∧
    (CohenSutherlandLineClip fuel b a rect = some none ↔
      CohenSutherlandLineClip fuel a b rect = some none) ∧
    (CohenSutherlandLineClip fuel b a rect = none ↔
      CohenSutherlandLineClip fuel a b rect = none) := by
  have h := CohenSutherlandLineClip_reverse fuel a b rect
  refine ⟨h, ?_, ?_⟩
  · rw [h]
    cases CohenSutherlandLineClip fuel a b rect with
    | none => simp
    | some res => cases res <;> simp
  · rw [h]
    cases CohenSutherlandLineClip fuel a b rect <;> simp

/-- C19: for every polyline and every rectangle for which `clip` returns, every returned
polyline has at least two points. -/
theorem C19_output_lines_have_two_points (rect : Rect) (fuel : Nat) (line : Line)
    (out : List Line) (h : clip fuel line rect = some out) :
    ∀ l ∈ out, 2 ≤ l.length :=
  fun l hl => (clip_good fuel rect line out h l hl).1

theorem C19_witness :
    clip 4 reentryLine rect10 = some [[(0, 5), (5, 5), (5, 0), (10, 4)]] ∧
    ∀ l ∈ [[((0, 5) : Point), (5, 5), (5, 0), (10, 4)]], 2 ≤ l.length :=
  ⟨by decide!, C19_output_lines_have_two_points rect10 4 reentryLine _ (by decide!)⟩

/-- C20: re-clipping is stable: for every polyline and every rectangle for which `clip`
returns, each returned polyline `p` is clipped to `[p]`, whatever the fuel. -/
theorem C20_reclip_stable (rect : Rect) (fuel : Nat) (line : Line)
    (out : List Line) (h : clip fuel line rect = some out) :
    ∀ p ∈ out, ∀ fuel', clip fuel' p rect = some [p] :=
  fun p hp fuel' =>
    clip_inside fuel' rect p (clip_good fuel rect line out h p hp).1
      (clip_good fuel rect line out h p hp).2

theorem C20_witness :
    clip 4 reentryLine rect10 = some [[(0, 5), (5, 5), (5, 0), (10, 4)]] ∧
    ∀ p ∈ [[((0, 5) : Point), (5, 5), (5, 0), (10, 4)]], ∀ fuel',
      clip fuel' p rect10 = some [p] :=
  ⟨by decide!, C20_reclip_stable rect10 4 reentryLine _ (by decide!)⟩

end cutlines
